import Mathlib

/-!
Verification of the NVIDIA block-linear tiled-copy core
(`src/nouveau/nil/copy.rs`) and the rusticl VMA wrapper
(`src/gallium/frontends/rusticl/mesa/util/vm.rs`).

The Rust code is shallowly embedded: `u32`/`u64` values become `Nat`
(the code's plain `+`/`*`/`-` arithmetic panics on overflow/underflow in
debug builds, so the `Nat` semantics agrees on all non-panicking runs);
the explicitly `wrapping_*` pointer arithmetic of `LinearPointer` is
embedded in `ZMod USIZE` (`USIZE = 2 ^ 64`), whose ring operations are
exactly wrapping 64-bit arithmetic.  Loops that only perform memory
copies are embedded as the list of `(tiled address, linear address)`
byte pairs they touch, and the memory effect as a left fold of updates
over that list.  The tiled and the linear buffer are kept as two
separate memories, which encodes the documented aliasing contract that
the two buffers are disjoint.
-/

/-- Size of the `usize` address space: all `wrapping_*` pointer
arithmetic in `copy.rs` is arithmetic modulo this constant. -/
def USIZE : Nat := 2 ^ 64

/-- Wrapping 64-bit addresses, the type of linear-side byte addresses. -/
abbrev LinAddr := ZMod USIZE

/-- `Offset4D<U>` from `extent.rs` (only declared outside `src/`):
a 4-component coordinate `(x, y, z, a)`. -/
structure Offset4D where
  x : Nat
  y : Nat
  z : Nat
  a : Nat
deriving DecidableEq, Repr

/-- `Extent4D<U>` from `extent.rs` (only declared outside `src/`):
a 4-component size `(width, height, depth, array_len)`. -/
structure Extent4D where
  width : Nat
  height : Nat
  depth : Nat
  array_len : Nat
deriving DecidableEq, Repr

/-- `Offset4D::new(x, y, z, a)`. -/
def Offset4D.new (x y z a : Nat) : Offset4D := ⟨x, y, z, a⟩

/-- Modelled from the spec: `impl Add<Extent4D> for Offset4D` lives in
`extent.rs`, outside `src/`; the spec describes the rectangle as
`[offset_B, offset_B + extent_B)`, i.e. a componentwise sum. -/
instance : HAdd Offset4D Extent4D Offset4D where
  hAdd o e := ⟨o.x + e.width, o.y + e.height, o.z + e.depth, o.a + e.array_len⟩

theorem Offset4D.add_extent_def (o : Offset4D) (e : Extent4D) :
    o + e = ⟨o.x + e.width, o.y + e.height, o.z + e.depth, o.a + e.array_len⟩ := rfl

/-- Modelled from the spec: `Tiling` lives in `tiling.rs`, outside `src/`.
The spec gives its fields as `gob_height_is_8` and the per-axis
`x_log2`, `y_log2`, `z_log2` of GOBs-per-tile. -/
structure Tiling where
  gob_height_is_8 : Bool
  x_log2 : Nat
  y_log2 : Nat
  z_log2 : Nat
deriving DecidableEq, Repr

/-- Modelled from the spec: `gob_height(gob_height_is_8)` — a GOB is
`64×8` bytes if the flag is set, else `64×4` (legacy). -/
def gob_height (is8 : Bool) : Nat := if is8 then 8 else 4

/-- Modelled from the spec: `Tiling::gob_extent_B = (64, gob_height, 1)`. -/
def Tiling.gob_extent_B (t : Tiling) : Extent4D :=
  ⟨64, gob_height t.gob_height_is_8, 1, 1⟩

/-- Modelled from the spec:
`tile_extent_B = (64<<x_log2, gob_height<<y_log2, 1<<z_log2)`. -/
def Tiling.extent_B (t : Tiling) : Extent4D :=
  ⟨64 * 2 ^ t.x_log2, gob_height t.gob_height_is_8 * 2 ^ t.y_log2,
    2 ^ t.z_log2, 1⟩

/-- Round `v` down to a multiple of `align`.  The source writes
`v & !(align - 1)` under a `debug_assert!(align.is_power_of_two())`;
for a power of two the mask equals `align * (v / align)`. -/
def align_down (v align : Nat) : Nat := align * (v / align)

/-- Round `v` up to a multiple of `align`; the source writes
`(v + align - 1) & !(align - 1)`. -/
def align_up (v align : Nat) : Nat := align * ((v + align - 1) / align)

/-- `aligned_range(start, end, align)` from `copy.rs`: the enclosing
range whose endpoints are aligned down resp. up. -/
def aligned_range (start end_ align : Nat) : Nat × Nat :=
  (align_down start align, align_up end_ align)

/-- `chunk_range(whole, chunk_start, chunk_len)` from `copy.rs`:
clip `whole` against the chunk at `chunk_start` and express the result
relative to `chunk_start`.  (`whole.start - chunk_start` is evaluated
only under `chunk_start < whole.start`, and `whole.end - chunk_start`
is a `u32` subtraction whose non-underflow is the subject of C10;
`Nat` subtraction agrees with it whenever it does not underflow.) -/
def chunk_range (whole : Nat × Nat) (chunk_start chunk_len : Nat) : Nat × Nat :=
  (if chunk_start < whole.1 then whole.1 - chunk_start else 0,
    min (whole.2 - chunk_start) chunk_len)

/-- Model of Rust's `(s..e).step_by(c)`: the values `s + i * c` that
are below `e`, in order.  (`(e - s + c - 1) / c` is the number of steps
the Rust iterator yields.) -/
def range_step_exact (s e c : Nat) : List Nat :=
  (List.range ((e - s + c - 1) / c)).map (fun i => s + i * c)

/-- Model of Rust's `(s..e).step_by(c)` applied to
`aligned_range(s, e, c)`: the values `align_down s c + i * c` that are
below `align_up e c`. -/
def range_step (s e c : Nat) : List Nat :=
  range_step_exact (align_down s c) (align_up e c) c

/-- `for_each_extent4d(start, end, chunk, f)` from `copy.rs`, embedded
as the list of arguments `(chunk_start, start, end)` passed to `f`, in
loop order (z outer, then y, then x). -/
def for_each_extent4d (start end_ : Offset4D) (chunk : Extent4D) :
    List (Offset4D × Offset4D × Offset4D) :=
  (range_step start.z end_.z chunk.depth).flatMap fun z =>
    let chunk_z := chunk_range (start.z, end_.z) z chunk.depth
    (range_step start.y end_.y chunk.height).flatMap fun y =>
      let chunk_y := chunk_range (start.y, end_.y) y chunk.height
      (range_step start.x end_.x chunk.width).map fun x =>
        let chunk_x := chunk_range (start.x, end_.x) x chunk.width
        (Offset4D.new x y z start.a,
          Offset4D.new chunk_x.1 chunk_y.1 chunk_z.1 start.a,
          Offset4D.new chunk_x.2 chunk_y.2 chunk_z.2 end_.a)

/-- `for_each_extent4d_aligned(start, end, chunk, f)` from `copy.rs`,
embedded as the list of chunk origins passed to `f`. -/
def for_each_extent4d_aligned (start end_ : Offset4D) (chunk : Extent4D) :
    List Offset4D :=
  (range_step_exact start.z end_.z chunk.depth).flatMap fun z =>
    (range_step_exact start.y end_.y chunk.height).flatMap fun y =>
      (range_step_exact start.x end_.x chunk.width).map fun x =>
        Offset4D.new x y z start.a

/-- `BlockPointer` from `copy.rs`: a block-linear byte-offset
calculator (the `#[cfg(debug_assertions)] bl_extent` field only feeds
`debug_assert!`s and carries no runtime behaviour). -/
structure BlockPointer where
  pointer : Nat
  x_mul : Nat
  y_mul : Nat
  z_mul : Nat
deriving DecidableEq, Repr

/-- `BlockPointer::new(pointer, bl_extent, extent)` from `copy.rs`. -/
def BlockPointer.new (pointer : Nat) (bl_extent extent : Extent4D) :
    BlockPointer where
  pointer := pointer
  x_mul := bl_extent.height * bl_extent.depth
  y_mul := extent.width * bl_extent.depth
  z_mul := extent.width * extent.height

/-- `BlockPointer::at(offset)` from `copy.rs` (`at` is a Lean keyword,
hence the name `addr`). -/
def BlockPointer.addr (b : BlockPointer) (offset : Offset4D) : Nat :=
  b.pointer + offset.z * b.z_mul + offset.y * b.y_mul + offset.x * b.x_mul

/-- `LinearPointer` from `copy.rs`: a strided byte-offset calculator.
Its pointer arithmetic is explicitly `wrapping_*` in the source, so the
pointer is carried in `ZMod USIZE`. -/
structure LinearPointer where
  pointer : LinAddr
  x_shift : Nat
  row_stride_B : Nat
  plane_stride_B : Nat

/-- `LinearPointer::new(pointer, x_divisor, row_stride_B, plane_stride_B)`:
`x_shift = x_divisor.ilog2()`. -/
def LinearPointer.new (pointer : LinAddr) (x_divisor row plane : Nat) :
    LinearPointer :=
  ⟨pointer, Nat.log2 x_divisor, row, plane⟩

/-- `LinearPointer::x_divisor()`. -/
def LinearPointer.x_divisor (l : LinearPointer) : Nat := 1 <<< l.x_shift

/-- `LinearPointer::at(offset)` from `copy.rs` (named `addr`; `at` is a
Lean keyword). -/
def LinearPointer.addr (l : LinearPointer) (offset : Offset4D) : LinAddr :=
  l.pointer + (offset.z * l.plane_stride_B : Nat)
    + (offset.y * l.row_stride_B : Nat) + (offset.x >>> l.x_shift : Nat)

/-- `LinearPointer::reverse(offset)` from `copy.rs`. -/
def LinearPointer.reverse (l : LinearPointer) (offset : Offset4D) :
    LinearPointer :=
  ⟨l.pointer - (offset.z * l.plane_stride_B : Nat)
      - (offset.y * l.row_stride_B : Nat) - (offset.x >>> l.x_shift : Nat),
    l.x_shift, l.row_stride_B, l.plane_stride_B⟩

/-- `LinearPointer::offset(offset)` from `copy.rs`. -/
def LinearPointer.offset (l : LinearPointer) (offset : Offset4D) :
    LinearPointer :=
  ⟨l.addr offset, l.x_shift, l.row_stride_B, l.plane_stride_B⟩

/-- The hardware pixel-address interleave documented in `copy.rs`
(`get_pixel_offset`): bit pattern `x5 y2 y1 x4 y0 x3 x2 x1 x0`. -/
def get_pixel_offset (x y : Nat) : Nat :=
  (x &&& 15) ||| ((y &&& 1) <<< 4) ||| ((x &&& 16) <<< 1)
    ||| ((y &&& 2) <<< 5) ||| ((x &&& 32) <<< 3)

/-- `gob2d_for_each_16b(f)` from `copy.rs`, embedded as the list of
`(offset, x, y)` triples passed to `f`, in call order: two half-width
columns (`i = 0, 1`), each with sixteen 16-byte lines. -/
def gob2d_for_each_16b : List (Nat × Nat × Nat) :=
  (List.range 2).flatMap fun i =>
    [(i * 0x100 + 0x00, i * 32 + 0, 0),
     (i * 0x100 + 0x10, i * 32 + 0, 1),
     (i * 0x100 + 0x20, i * 32 + 0, 2),
     (i * 0x100 + 0x30, i * 32 + 0, 3),
     (i * 0x100 + 0x40, i * 32 + 16, 0),
     (i * 0x100 + 0x50, i * 32 + 16, 1),
     (i * 0x100 + 0x60, i * 32 + 16, 2),
     (i * 0x100 + 0x70, i * 32 + 16, 3),
     (i * 0x100 + 0x80, i * 32 + 0, 4),
     (i * 0x100 + 0x90, i * 32 + 0, 5),
     (i * 0x100 + 0xa0, i * 32 + 0, 6),
     (i * 0x100 + 0xb0, i * 32 + 0, 7),
     (i * 0x100 + 0xc0, i * 32 + 16, 4),
     (i * 0x100 + 0xd0, i * 32 + 16, 5),
     (i * 0x100 + 0xe0, i * 32 + 16, 6),
     (i * 0x100 + 0xf0, i * 32 + 16, 7)]

/-- `GOB_EXTENT_B` of `impl CopyGOB for CopyGOB2D`: `(64, 8, 1, 1)`. -/
def GOB_EXTENT_B : Extent4D := ⟨64, 8, 1, 1⟩

/-- One 16-byte line of `CopyGOB2D::copy_gob` from `copy.rs`, embedded
as the `(tiled address, linear address)` byte pairs it copies.  `tiled`
is the GOB base plus the line's tiled offset, `lin` is
`linear.at(Offset4D::new(x, y, 0, 0))`.  The first branch copies the
whole 16-byte line, the second the sub-range clipped against
`[start.x, end.x)`; a line outside the x-range copies nothing.  (No
branch consults `start.y`/`end.y`.) -/
def copy_gob_line (tiled : Nat) (lin : LinAddr) (x sx ex : Nat) :
    List (Nat × LinAddr) :=
  if x ≥ sx ∧ x + 16 ≤ ex then
    (List.range 16).map fun j => (tiled + j, lin + (j : Nat))
  else if x + 16 ≥ sx ∧ x < ex then
    let s := max x sx - x
    let e := min (ex - x) 16
    (List.range (e - s)).map fun j => (tiled + (s + j), lin + ((s + j) : Nat))
  else []

/-- `CopyGOB2D::copy_gob(tiled, linear, start, end)` from `copy.rs`,
embedded as the list of `(tiled address, linear address)` byte pairs it
copies, in walker order. -/
def copy_gob (tiled : Nat) (linear : LinearPointer)
    (start end_ : Offset4D) : List (Nat × LinAddr) :=
  gob2d_for_each_16b.flatMap fun t =>
    copy_gob_line (tiled + t.1) (linear.addr (Offset4D.new t.2.1 t.2.2 0 0))
      t.2.1 start.x end_.x

/-- `CopyGOB2D::copy_whole_gob(tiled, linear)` from `copy.rs` (the
override without bounds checks): every 16-byte line in full. -/
def copy_whole_gob (tiled : Nat) (linear : LinearPointer) :
    List (Nat × LinAddr) :=
  gob2d_for_each_16b.flatMap fun t =>
    (List.range 16).map fun j =>
      (tiled + t.1 + j,
        linear.addr (Offset4D.new t.2.1 t.2.2 0 0) + (j : Nat))

/-- The branch condition of `copy_tile`:
`start.is_aligned_to(GOB_EXTENT_B) && end.is_aligned_to(GOB_EXTENT_B)`
(`Offset4D::is_aligned_to` lives in `extent.rs`, outside `src/`;
modelled from the spec as componentwise divisibility). -/
def gob_aligned (start end_ : Offset4D) : Prop :=
  (start.x % GOB_EXTENT_B.width = 0 ∧ start.y % GOB_EXTENT_B.height = 0 ∧
      start.z % GOB_EXTENT_B.depth = 0) ∧
    (end_.x % GOB_EXTENT_B.width = 0 ∧ end_.y % GOB_EXTENT_B.height = 0 ∧
      end_.z % GOB_EXTENT_B.depth = 0)

instance (start end_ : Offset4D) : Decidable (gob_aligned start end_) := by
  unfold gob_aligned
  exact inferInstance

/-- `copy_tile(tiling, tile_ptr, linear, start, end)` from `copy.rs`,
embedded as the byte pairs copied.  The aligned fast path walks whole
GOBs; otherwise each GOB chunk is clipped, with the whole-GOB shortcut
when the chunk turns out to be full. -/
def copy_tile (tiling : Tiling) (tile_ptr : Nat) (linear : LinearPointer)
    (start end_ : Offset4D) : List (Nat × LinAddr) :=
  let bp := BlockPointer.new tile_ptr GOB_EXTENT_B tiling.extent_B
  if gob_aligned start end_ then
    (for_each_extent4d_aligned start end_ GOB_EXTENT_B).flatMap fun gob =>
      copy_whole_gob (bp.addr gob) (linear.offset gob)
  else
    (for_each_extent4d start end_ GOB_EXTENT_B).flatMap fun c =>
      let tiled := bp.addr c.1
      let lin := linear.offset c.1
      if c.2.1 = Offset4D.new 0 0 0 0 ∧
          c.2.2 = Offset4D.new 0 0 0 0 + GOB_EXTENT_B then
        copy_whole_gob tiled lin
      else
        copy_gob tiled lin c.2.1 c.2.2

/-- Componentwise align-up of a level extent to the tile extent:
`Extent4D::align` lives in `extent.rs`, outside `src/`.  Modelled from
the spec: the level byte-extent is "aligned up to a tile multiple so
that the block-linear grid is rectangular". -/
def Extent4D.align (e other : Extent4D) : Extent4D :=
  ⟨align_up e.width other.width, align_up e.height other.height,
    align_up e.depth other.depth, align_up e.array_len other.array_len⟩

/-- `copy_tiled(tiling, level_extent_B, level_tiled_ptr, linear, start, end)`
from `copy.rs`, embedded as the byte pairs copied: the linear cursor is
backed up by `start`, the level extent aligned up to tiles, and every
tile chunk delegated to `copy_tile`. -/
def copy_tiled (tiling : Tiling) (level_extent_B : Extent4D)
    (level_tiled_ptr : Nat) (linear : LinearPointer)
    (start end_ : Offset4D) : List (Nat × LinAddr) :=
  let tile_extent_B := tiling.extent_B
  let level_extent_B := level_extent_B.align tile_extent_B
  let linear := linear.reverse start
  let level_bp := BlockPointer.new level_tiled_ptr tile_extent_B level_extent_B
  (for_each_extent4d start end_ tile_extent_B).flatMap fun c =>
    copy_tile tiling (level_bp.addr c.1) (linear.offset c.1) c.2.1 c.2.2

/-- `CopySwizzle` from `copy.rs`. -/
inductive CopySwizzle where
  | _None
  | _Z24X8
  | _X24S8
  | _Z32_X32
  | _X32_X24S8
deriving DecidableEq, Repr

/-- Effect on the tiled buffer of copying the listed byte pairs in the
linear→tiled direction (`RawCopyToTiled::copy`): each step writes the
linear byte into the tiled destination.  The linear buffer is only
read, matching the disjoint-buffers contract. -/
def run_pairs_to_tiled (ps : List (Nat × LinAddr)) (T : Nat → Nat)
    (L : LinAddr → Nat) : Nat → Nat :=
  ps.foldl (fun t p => Function.update t p.1 (L p.2)) T

/-- Effect on the linear buffer of copying the listed byte pairs in the
tiled→linear direction (`RawCopyToLinear::copy`). -/
def run_pairs_to_linear (ps : List (Nat × LinAddr)) (T : Nat → Nat)
    (L : LinAddr → Nat) : LinAddr → Nat :=
  ps.foldl (fun l p => Function.update l p.2 (T p.1)) L

/-- `nil_copy_linear_to_tiled` from `copy.rs`: builds the linear cursor
with `x_divisor = 1` and runs `copy_tiled` with the `RawCopyToTiled`
sector primitive; returns the new tiled buffer.  The `swizzle`
parameter is accepted but not consulted, as in the source. -/
def nil_copy_linear_to_tiled (tiled_dst : Nat) (level_extent_B : Extent4D)
    (linear_src : LinAddr) (linear_row_stride_B linear_plane_stride_B : Nat)
    (offset_B : Offset4D) (extent_B : Extent4D) (_swizzle : CopySwizzle)
    (tiling : Tiling) (T : Nat → Nat) (L : LinAddr → Nat) : Nat → Nat :=
  let end_B := offset_B + extent_B
  let lp := LinearPointer.new linear_src 1 linear_row_stride_B
    linear_plane_stride_B
  run_pairs_to_tiled
    (copy_tiled tiling level_extent_B tiled_dst lp offset_B end_B) T L

/-- `nil_copy_tiled_to_linear` from `copy.rs`: same traversal with the
`RawCopyToLinear` sector primitive; returns the new linear buffer. -/
def nil_copy_tiled_to_linear (linear_dst : LinAddr)
    (linear_row_stride_B linear_plane_stride_B : Nat) (tiled_src : Nat)
    (level_extent_B : Extent4D) (offset_B : Offset4D) (extent_B : Extent4D)
    (_swizzle : CopySwizzle) (tiling : Tiling) (T : Nat → Nat)
    (L : LinAddr → Nat) : LinAddr → Nat :=
  let end_B := offset_B + extent_B
  let lp := LinearPointer.new linear_dst 1 linear_row_stride_B
    linear_plane_stride_B
  run_pairs_to_linear
    (copy_tiled tiling level_extent_B tiled_src lp offset_B end_B) T L

/-- `VMA` from `vm.rs`: a non-zero 64-bit address. -/
structure VMA where
  vma : Nat
deriving DecidableEq, Repr

/-- `VMA::address()`. -/
def VMA.address (v : VMA) : Nat := v.vma

namespace VMInner

/-- `VMInner::alloc(size, align)` from `vm.rs` as a function of the
address returned by the external C allocator `util_vma_heap_alloc`
(which is outside this repository): `NonZeroU64::new(addr).map(|addr|
VMA { vma: addr })`. -/
def alloc (util_vma_heap_alloc_result : Nat) : Option VMA :=
  if util_vma_heap_alloc_result = 0 then none
  else some ⟨util_vma_heap_alloc_result⟩

end VMInner

/-- C2: the enumeration of `gob2d_for_each_16b` does NOT match the
hardware formula documented in the file's own comment (and repeated by
the spec).  At the third call the walker pairs GOB offset `0x20` with
the coordinate `(x, y) = (0, 2)`, but
`(x&15) | (y&1)<<4 | (x&16)<<1 | (y&2)<<5 | (x&32)<<3` evaluates to
`0x40` there: the walker places bit `x4` at bit 6 and bit `y1` at
bit 5, while the documented interleave is the other way around. -/
theorem gob2d_contradicts_hw_formula :
    (0x20, 0, 2) ∈ gob2d_for_each_16b ∧
      get_pixel_offset 0 2 = 0x40 ∧ (0x20 : Nat) ≠ 0x40 := by
  decide

/-- C7: the 32 triples of `gob2d_for_each_16b` carry as offsets exactly
the 32 multiples of 16 below 512, each once, and as `(x, y)` pairs
exactly `{0, 16, 32, 48} × {0, …, 7}`, each once. -/
theorem gob2d_exhaustive_nonrepeating :
    List.Perm (gob2d_for_each_16b.map (fun t => t.1))
        ((List.range 32).map (fun i => i * 16)) ∧
      List.Perm (gob2d_for_each_16b.map (fun t => t.2))
        ([0, 16, 32, 48].flatMap (fun x => (List.range 8).map fun y => (x, y))) := by
  constructor
  · decide
  · decide

/-- C6: both entry points ignore the `swizzle` argument — the active
copy path always instantiates the `Raw` sector primitive — so their
effect on every byte of the destination buffer is the same as with
`swizzle = None`. -/
theorem nil_copy_swizzle_independent :
    ∀ (tiled : Nat) (level : Extent4D) (lin : LinAddr) (row plane : Nat)
      (off : Offset4D) (ext : Extent4D) (sw : CopySwizzle) (tiling : Tiling)
      (T : Nat → Nat) (L : LinAddr → Nat) (a : Nat) (b : LinAddr),
      nil_copy_linear_to_tiled tiled level lin row plane off ext sw
          tiling T L a =
        nil_copy_linear_to_tiled tiled level lin row plane off ext
          CopySwizzle._None tiling T L a ∧
      nil_copy_tiled_to_linear lin row plane tiled level off ext sw
          tiling T L b =
        nil_copy_tiled_to_linear lin row plane tiled level off ext
          CopySwizzle._None tiling T L b :=
  fun _ _ _ _ _ _ _ _ _ _ _ _ _ => ⟨rfl, rfl⟩

/-- C9: `VMInner::alloc` returns `None` exactly when the underlying
`util_vma_heap_alloc` call yields address 0, and otherwise returns
`Some(VMA)` whose `address()` is that non-zero address; the `Option`
is the only failure channel. -/
theorem vminner_alloc_none_iff (addr : Nat) :
    (VMInner.alloc addr = none ↔ addr = 0) ∧
      ∀ v, VMInner.alloc addr = some v → v.address = addr ∧ addr ≠ 0 := by
  unfold VMInner.alloc
  by_cases h : addr = 0 <;> simp [h, VMA.address]

/-- Witness for C9: allocating with the allocator returning address 5
yields `Some` with address 5. -/
theorem vminner_alloc_none_iff_witness :
    (⟨5⟩ : VMA).address = 5 ∧ (5 : Nat) ≠ 0 :=
  (vminner_alloc_none_iff 5).2 ⟨5⟩ rfl

/-- C8: `LinearPointer::offset` and `LinearPointer::reverse` are
mutually inverse under wrapping address arithmetic, for offsets with
`x` a multiple of the cursor's `x_divisor` and `a = 0`. -/
theorem linear_pointer_offset_reverse (l : LinearPointer) (o : Offset4D)
    (h1 : o.x % l.x_divisor = 0) (h2 : o.a = 0) :
    (l.reverse o).offset o = l ∧ (l.offset o).reverse o = l := by
  obtain ⟨p, s, r, pl⟩ := l
  refine ⟨?_, ?_⟩ <;>
    · simp only [LinearPointer.offset, LinearPointer.reverse,
        LinearPointer.addr, LinearPointer.mk.injEq, and_true, true_and,
        and_self]
      ring

/-- Witness for C8: a concrete cursor with strides 64/512 and offset
`(3, 2, 1, 0)` round-trips. -/
theorem linear_pointer_offset_reverse_witness :
    ((⟨100, 0, 64, 512⟩ : LinearPointer).reverse ⟨3, 2, 1, 0⟩).offset
        ⟨3, 2, 1, 0⟩ = ⟨100, 0, 64, 512⟩ ∧
      ((⟨100, 0, 64, 512⟩ : LinearPointer).offset ⟨3, 2, 1, 0⟩).reverse
        ⟨3, 2, 1, 0⟩ = ⟨100, 0, 64, 512⟩ :=
  linear_pointer_offset_reverse ⟨100, 0, 64, 512⟩ ⟨3, 2, 1, 0⟩ (by decide) rfl


theorem align_down_le (v c : Nat) : align_down v c ≤ v := by
  have h := Nat.div_add_mod v c
  unfold align_down
  omega

theorem lt_align_down_add (hc : 0 < c) (v : Nat) :
    v < align_down v c + c := by
  have h := Nat.div_add_mod v c
  have h2 := Nat.mod_lt v hc
  unfold align_down
  omega

theorem align_down_dvd (v c : Nat) : c ∣ align_down v c := ⟨v / c, rfl⟩

theorem align_up_dvd (v c : Nat) : c ∣ align_up v c := ⟨(v + c - 1) / c, rfl⟩

theorem align_down_mono (h : v ≤ w) : align_down v c ≤ align_down w c :=
  Nat.mul_le_mul_left c (Nat.div_le_div_right h)

theorem le_align_up (hc : 0 < c) (v : Nat) : v ≤ align_up v c := by
  unfold align_up
  have h := Nat.div_add_mod (v + c - 1) c
  have h2 := Nat.mod_lt (v + c - 1) hc
  omega

theorem align_up_mono (h : v ≤ w) : align_up v c ≤ align_up w c :=
  Nat.mul_le_mul_left c (Nat.div_le_div_right (by omega))

/-- `align_up e c` is the least multiple of `c` that is `≥ e`. -/
theorem align_up_le_of_dvd_of_le (hd : c ∣ v) (h : e ≤ v) :
    align_up e c ≤ v := by
  obtain ⟨k, rfl⟩ := hd
  rcases Nat.eq_zero_or_pos c with hc | hc
  · simp [align_up, hc]
  refine Nat.mul_le_mul_left c ((Nat.div_le_iff_le_mul_add_pred hc).2 ?_)
  omega

theorem align_up_of_dvd (hd : c ∣ v) (hc : 0 < c) : align_up v c = v :=
  Nat.le_antisymm (align_up_le_of_dvd_of_le hd le_rfl) (le_align_up hc v)

theorem align_down_of_dvd (hd : c ∣ v) (hc : 0 < c) : align_down v c = v := by
  obtain ⟨k, rfl⟩ := hd
  unfold align_down
  rw [Nat.mul_div_cancel_left k hc]

/-- `align_down p c = k` exactly when `k` is the multiple of `c` whose
window `[k, k + c)` contains `p`. -/
theorem align_down_eq_iff (hc : 0 < c) (hk : c ∣ k) :
    align_down p c = k ↔ k ≤ p ∧ p < k + c := by
  obtain ⟨d, rfl⟩ := hk
  constructor
  · intro h
    have h1 := align_down_le p c
    have h2 := lt_align_down_add hc p
    omega
  · rintro ⟨h1, h2⟩
    unfold align_down
    have hp : p = c * d + (p - c * d) := by omega
    rw [hp, Nat.mul_add_div hc, Nat.div_eq_of_lt (by omega), Nat.add_zero]

theorem mem_range_step_exact :
    v ∈ range_step_exact s e c ↔
      ∃ i, i < (e - s + c - 1) / c ∧ v = s + i * c := by
  simp [range_step_exact, List.mem_map, List.mem_range, eq_comm]

/-- Membership in the aligned stepped range: exactly the multiples of
the step in `[align_down s c, align_up e c)`. -/
theorem mem_range_step (hc : 0 < c) :
    v ∈ range_step s e c ↔
      c ∣ v ∧ align_down s c ≤ v ∧ v < align_up e c := by
  obtain ⟨S, hS⟩ := align_down_dvd s c
  obtain ⟨E, hE⟩ := align_up_dvd e c
  rw [range_step, mem_range_step_exact, hS, hE]
  rcases le_or_lt E S with hle | hlt
  · have hz : c * E - c * S = 0 := by
      have := Nat.mul_le_mul_left c hle
      omega
    have hcnt : (c * E - c * S + c - 1) / c = 0 := by
      rw [hz, Nat.zero_add, Nat.div_eq_of_lt (by omega)]
    rw [hcnt]
    constructor
    · rintro ⟨i, hi, -⟩
      omega
    · rintro ⟨-, h1, h2⟩
      have := Nat.mul_le_mul_left c hle
      omega
  · have hsub : c * E - c * S = c * (E - S) := by
      rw [Nat.mul_sub_left_distrib]
    have hcnt : (c * E - c * S + c - 1) / c = E - S := by
      rw [hsub]
      have hpos : 0 < c * (E - S) := by
        exact Nat.mul_pos hc (by omega)
      have : c * (E - S) + c - 1 = c * (E - S) + (c - 1) := by omega
      rw [this, Nat.mul_add_div hc, Nat.div_eq_of_lt (by omega), Nat.add_zero]
    rw [hcnt]
    constructor
    · rintro ⟨i, hi, rfl⟩
      refine ⟨⟨S + i, by ring⟩, Nat.le_add_right _ _, ?_⟩
      calc c * S + i * c = c * (S + i) := by ring
        _ < c * E := by
            rw [Nat.mul_lt_mul_left hc]
            omega
    · rintro ⟨⟨k, rfl⟩, h1, h2⟩
      have hSk : S ≤ k := Nat.le_of_mul_le_mul_left h1 hc
      have hkE : k < E := by
        rw [Nat.mul_lt_mul_left hc] at h2
        exact h2
      refine ⟨k - S, by omega, ?_⟩
      calc c * k = c * (S + (k - S)) := by congr 1; omega
        _ = c * S + (k - S) * c := by ring

/-- Every chunk start enumerated by the aligned stepped range lies
strictly below the (unaligned) range end: this is the
`debug_assert!(chunk_start < whole.end)` of `chunk_range`. -/
theorem range_step_mem_lt_end (hc : 0 < c) (hv : v ∈ range_step s e c) :
    v < e := by
  obtain ⟨hdvd, -, hlt⟩ := (mem_range_step hc).1 hv
  by_contra h
  have hle : align_up e c ≤ v := align_up_le_of_dvd_of_le hdvd (by omega)
  omega

/-- The window of the multiple of `c` containing any point of `[s, e)`
is enumerated by the aligned stepped range. -/
theorem align_down_mem_range_step (hc : 0 < c) (hsp : s ≤ p) (hpe : p < e) :
    align_down p c ∈ range_step s e c := by
  rw [mem_range_step hc]
  refine ⟨align_down_dvd p c, align_down_mono hsp, ?_⟩
  calc align_down p c ≤ p := align_down_le p c
    _ < e := hpe
    _ ≤ align_up e c := le_align_up hc e

/-- Componentwise sum of two offsets (`Offset4D + Offset4D`), used to
express a chunk as `chunk_origin + [local_start, local_end)`. -/
instance : Add Offset4D where
  add o p := ⟨o.x + p.x, o.y + p.y, o.z + p.z, o.a + p.a⟩

theorem Offset4D.add_def (o p : Offset4D) :
    o + p = ⟨o.x + p.x, o.y + p.y, o.z + p.z, o.a + p.a⟩ := rfl

/-- Membership of a point in the half-open box `[start, end_)`,
componentwise in all four axes. -/
def in_rect (start end_ p : Offset4D) : Prop :=
  start.x ≤ p.x ∧ p.x < end_.x ∧ start.y ≤ p.y ∧ p.y < end_.y ∧
    start.z ≤ p.z ∧ p.z < end_.z ∧ start.a ≤ p.a ∧ p.a < end_.a

instance (start end_ p : Offset4D) : Decidable (in_rect start end_ p) := by
  unfold in_rect
  exact inferInstance

/-- Membership of a point in a chunk `(origin, local_start, local_end)`
as emitted by `for_each_extent4d`: the box
`origin + [local_start, local_end)`. -/
def in_chunk (ch : Offset4D × Offset4D × Offset4D) (p : Offset4D) : Prop :=
  in_rect (ch.1 + ch.2.1) (ch.1 + ch.2.2) p

instance (ch : Offset4D × Offset4D × Offset4D) (p : Offset4D) :
    Decidable (in_chunk ch p) := by
  unfold in_chunk
  exact inferInstance

/-- The point set of a chunk along one axis, versus the clipped range:
`p` lies in `[k + cr.start, k + cr.end)` exactly when `p` is inside the
whole range `[s, e)` and inside the chunk window `[k, k + c)`. -/
theorem chunk_window_iff (hc : 0 < c) (hse : s ≤ e)
    (hkm : k ∈ range_step s e c) (p : Nat) :
    (k + (chunk_range (s, e) k c).1 ≤ p ∧ p < k + (chunk_range (s, e) k c).2) ↔
      s ≤ p ∧ p < e ∧ align_down p c = k := by
  obtain ⟨hk, hks, -⟩ := (mem_range_step hc).1 hkm
  have hke : k < e := range_step_mem_lt_end hc hkm
  have hsk : s < k + c := by
    have h1 := lt_align_down_add hc s
    omega
  rw [align_down_eq_iff hc hk]
  unfold chunk_range
  simp only [Nat.min_def]
  split_ifs <;> omega

/-- Unfolding of membership in the chunk list of `for_each_extent4d`. -/
theorem mem_for_each_extent4d {start end_ : Offset4D} {chunk : Extent4D}
    {ch : Offset4D × Offset4D × Offset4D} :
    ch ∈ for_each_extent4d start end_ chunk ↔
      ∃ z ∈ range_step start.z end_.z chunk.depth,
        ∃ y ∈ range_step start.y end_.y chunk.height,
          ∃ x ∈ range_step start.x end_.x chunk.width,
            ch = (Offset4D.new x y z start.a,
              Offset4D.new (chunk_range (start.x, end_.x) x chunk.width).1
                (chunk_range (start.y, end_.y) y chunk.height).1
                (chunk_range (start.z, end_.z) z chunk.depth).1 start.a,
              Offset4D.new (chunk_range (start.x, end_.x) x chunk.width).2
                (chunk_range (start.y, end_.y) y chunk.height).2
                (chunk_range (start.z, end_.z) z chunk.depth).2 end_.a) := by
  simp only [for_each_extent4d, List.mem_flatMap, List.mem_map]
  constructor
  · rintro ⟨z, hz, y, hy, x, hx, rfl⟩
    exact ⟨z, hz, y, hy, x, hx, rfl⟩
  · rintro ⟨z, hz, y, hy, x, hx, rfl⟩
    exact ⟨z, hz, y, hy, x, hx, rfl⟩

/-- A chunk emitted by `for_each_extent4d` contains exactly the points
of the rectangle whose componentwise aligned-down window is the chunk
origin. -/
theorem in_chunk_iff {start end_ : Offset4D} {chunk : Extent4D}
    (hw : 0 < chunk.width) (hh : 0 < chunk.height) (hd : 0 < chunk.depth)
    (hsa : start.a = 0) (hx : start.x ≤ end_.x) (hy : start.y ≤ end_.y)
    (hz : start.z ≤ end_.z) {ch : Offset4D × Offset4D × Offset4D}
    (hch : ch ∈ for_each_extent4d start end_ chunk) (p : Offset4D) :
    in_chunk ch p ↔
      in_rect start end_ p ∧
        ch.1 = ⟨align_down p.x chunk.width, align_down p.y chunk.height,
          align_down p.z chunk.depth, start.a⟩ := by
  rw [mem_for_each_extent4d] at hch
  obtain ⟨z, hzm, y, hym, x, hxm, rfl⟩ := hch
  have hcx := chunk_window_iff hw hx hxm p.x
  have hcy := chunk_window_iff hh hy hym p.y
  have hcz := chunk_window_iff hd hz hzm p.z
  simp only [in_chunk, in_rect, Offset4D.add_def, Offset4D.new,
    Offset4D.mk.injEq] at *
  constructor
  · rintro ⟨h1, h2, h3, h4, h5, h6, h7, h8⟩
    obtain ⟨hx1, hx2, hx3⟩ := hcx.1 ⟨h1, h2⟩
    obtain ⟨hy1, hy2, hy3⟩ := hcy.1 ⟨h3, h4⟩
    obtain ⟨hz1, hz2, hz3⟩ := hcz.1 ⟨h5, h6⟩
    exact ⟨⟨hx1, hx2, hy1, hy2, hz1, hz2, by omega, by omega⟩,
      hx3.symm, hy3.symm, hz3.symm, trivial⟩
  · rintro ⟨⟨h1, h2, h3, h4, h5, h6, h7, h8⟩, e1, e2, e3, -⟩
    obtain ⟨hx1, hx2⟩ := hcx.2 ⟨h1, h2, e1.symm⟩
    obtain ⟨hy1, hy2⟩ := hcy.2 ⟨h3, h4, e2.symm⟩
    obtain ⟨hz1, hz2⟩ := hcz.2 ⟨h5, h6, e3.symm⟩
    exact ⟨hx1, hx2, hy1, hy2, hz1, hz2, by omega, by omega⟩

/-- C5: for componentwise `start ≤ end` with the array components
fixed to 0 and 1, and a chunk extent with power-of-two width, height
and depth and `array_len = 1`, the chunks emitted by
`for_each_extent4d` — each being `chunk_origin + [local_start,
local_end)` — cover the rectangle `[start, end)` exactly, and any two
distinct emitted chunks are disjoint. -/
theorem for_each_extent4d_partition
    (start end_ : Offset4D) (chunk : Extent4D)
    (hw : ∃ k, chunk.width = 2 ^ k) (hh : ∃ k, chunk.height = 2 ^ k)
    (hd : ∃ k, chunk.depth = 2 ^ k) (hal : chunk.array_len = 1)
    (hsa : start.a = 0) (hea : end_.a = 1)
    (hx : start.x ≤ end_.x) (hy : start.y ≤ end_.y) (hz : start.z ≤ end_.z) :
    (∀ p : Offset4D, in_rect start end_ p ↔
        ∃ ch ∈ for_each_extent4d start end_ chunk, in_chunk ch p) ∧
      ∀ ch1 ∈ for_each_extent4d start end_ chunk,
        ∀ ch2 ∈ for_each_extent4d start end_ chunk,
          ch1 ≠ ch2 → ∀ p : Offset4D, ¬(in_chunk ch1 p ∧ in_chunk ch2 p) := by
  have hw0 : 0 < chunk.width := by
    obtain ⟨k, hk⟩ := hw
    rw [hk]
    positivity
  have hh0 : 0 < chunk.height := by
    obtain ⟨k, hk⟩ := hh
    rw [hk]
    positivity
  have hd0 : 0 < chunk.depth := by
    obtain ⟨k, hk⟩ := hd
    rw [hk]
    positivity
  constructor
  · intro p
    constructor
    · intro hp
      obtain ⟨h1, h2, h3, h4, h5, h6, h7, h8⟩ := hp
      refine ⟨_, mem_for_each_extent4d.2
        ⟨align_down p.z chunk.depth, align_down_mem_range_step hd0 h5 h6,
          align_down p.y chunk.height, align_down_mem_range_step hh0 h3 h4,
          align_down p.x chunk.width, align_down_mem_range_step hw0 h1 h2,
          rfl⟩, ?_⟩
      rw [in_chunk_iff hw0 hh0 hd0 hsa hx hy hz (mem_for_each_extent4d.2
        ⟨align_down p.z chunk.depth, align_down_mem_range_step hd0 h5 h6,
          align_down p.y chunk.height, align_down_mem_range_step hh0 h3 h4,
          align_down p.x chunk.width, align_down_mem_range_step hw0 h1 h2,
          rfl⟩) p]
      exact ⟨⟨h1, h2, h3, h4, h5, h6, h7, h8⟩, rfl⟩
    · rintro ⟨ch, hch, hin⟩
      exact ((in_chunk_iff hw0 hh0 hd0 hsa hx hy hz hch p).1 hin).1
  · intro ch1 hm1 ch2 hm2 hne p hp
    obtain ⟨hp1, hp2⟩ := hp
    have e1 := ((in_chunk_iff hw0 hh0 hd0 hsa hx hy hz hm1 p).1 hp1).2
    have e2 := ((in_chunk_iff hw0 hh0 hd0 hsa hx hy hz hm2 p).1 hp2).2
    apply hne
    obtain ⟨z1, -, y1, -, x1, -, rfl⟩ := mem_for_each_extent4d.1 hm1
    obtain ⟨z2, -, y2, -, x2, -, rfl⟩ := mem_for_each_extent4d.1 hm2
    simp only [Offset4D.new, Offset4D.mk.injEq] at e1 e2 ⊢
    obtain ⟨ex1, ey1, ez1, -⟩ := e1
    obtain ⟨ex2, ey2, ez2, -⟩ := e2
    subst ex1
    subst ey1
    subst ez1
    simp_all

/-- Witness for C5: for the rectangle `[(1,0,0,0), (5,2,1,1))` and the
chunk extent `(4, 2, 1, 1)`, the point `(2, 1, 0, 0)` lies in the
rectangle and in one of the emitted chunks. -/
theorem for_each_extent4d_partition_witness :
    in_rect ⟨1, 0, 0, 0⟩ ⟨5, 2, 1, 1⟩ ⟨2, 1, 0, 0⟩ ∧
      ∃ ch ∈ for_each_extent4d ⟨1, 0, 0, 0⟩ ⟨5, 2, 1, 1⟩ ⟨4, 2, 1, 1⟩,
        in_chunk ch ⟨2, 1, 0, 0⟩ :=
  ⟨by decide,
    ((for_each_extent4d_partition ⟨1, 0, 0, 0⟩ ⟨5, 2, 1, 1⟩ ⟨4, 2, 1, 1⟩
        ⟨2, rfl⟩ ⟨1, rfl⟩ ⟨0, rfl⟩ rfl rfl rfl (by decide) (by decide)
        (by decide)).1 ⟨2, 1, 0, 0⟩).1 (by decide)⟩

/-- Unfolding of membership in the chunk-origin list of
`for_each_extent4d_aligned`. -/
theorem mem_for_each_extent4d_aligned {start end_ : Offset4D}
    {chunk : Extent4D} {g : Offset4D} :
    g ∈ for_each_extent4d_aligned start end_ chunk ↔
      ∃ z ∈ range_step_exact start.z end_.z chunk.depth,
        ∃ y ∈ range_step_exact start.y end_.y chunk.height,
          ∃ x ∈ range_step_exact start.x end_.x chunk.width,
            g = Offset4D.new x y z start.a := by
  simp only [for_each_extent4d_aligned, List.mem_flatMap, List.mem_map]
  constructor
  · rintro ⟨z, hz, y, hy, x, hx, rfl⟩
    exact ⟨z, hz, y, hy, x, hx, rfl⟩
  · rintro ⟨z, hz, y, hy, x, hx, rfl⟩
    exact ⟨z, hz, y, hy, x, hx, rfl⟩

theorem range_step_exact_dvd (hs : c ∣ s) (hv : v ∈ range_step_exact s e c) :
    c ∣ v := by
  rw [mem_range_step_exact] at hv
  obtain ⟨i, -, rfl⟩ := hv
  exact Nat.dvd_add hs (Dvd.intro_left i rfl)

/-- For an enumerated chunk start, the clipped range is ordered and
within the chunk length. -/
theorem cr_props (hc : 0 < c) (hse : s ≤ e) (hk : k ∈ range_step s e c) :
    (chunk_range (s, e) k c).1 ≤ (chunk_range (s, e) k c).2 ∧
      (chunk_range (s, e) k c).2 ≤ c := by
  obtain ⟨-, hks, -⟩ := (mem_range_step hc).1 hk
  have hke := range_step_mem_lt_end hc hk
  have hsk : s < k + c := by
    have h1 := lt_align_down_add hc s
    omega
  unfold chunk_range
  simp only [Nat.min_def]
  split_ifs <;> constructor <;> omega

/-- The local range emitted with a chunk is within the chunk extent and
ordered, and the array components are those of the rectangle. -/
theorem for_each_extent4d_locals (hw0 : 0 < chunk.width)
    (hh0 : 0 < chunk.height) (hd0 : 0 < chunk.depth)
    (hx : start.x ≤ end_.x) (hy : start.y ≤ end_.y) (hz : start.z ≤ end_.z)
    (hch : ch ∈ for_each_extent4d start end_ chunk) :
    ch.1.a = start.a ∧ ch.2.1.a = start.a ∧ ch.2.2.a = end_.a ∧
      ch.2.1.x ≤ ch.2.2.x ∧ ch.2.2.x ≤ chunk.width ∧
      ch.2.1.y ≤ ch.2.2.y ∧ ch.2.2.y ≤ chunk.height ∧
      ch.2.1.z ≤ ch.2.2.z ∧ ch.2.2.z ≤ chunk.depth := by
  obtain ⟨z, hzm, y, hym, x, hxm, rfl⟩ := mem_for_each_extent4d.1 hch
  have px := cr_props hw0 hx hxm
  have py := cr_props hh0 hy hym
  have pz := cr_props hd0 hz hzm
  exact ⟨rfl, rfl, rfl, px.1, px.2, py.1, py.2, pz.1, pz.2⟩


/-- The `(bl_extent, offset)` arguments of the `BlockPointer::at` calls
made by `copy_tile` (one call per GOB chunk, through either branch). -/
def copy_tile_block_addr_args (tiling : Tiling) (start end_ : Offset4D) :
    List (Extent4D × Offset4D) :=
  let _ := tiling
  if gob_aligned start end_ then
    (for_each_extent4d_aligned start end_ GOB_EXTENT_B).map fun g =>
      (GOB_EXTENT_B, g)
  else
    (for_each_extent4d start end_ GOB_EXTENT_B).map fun c =>
      (GOB_EXTENT_B, c.1)

/-- The `(bl_extent, offset)` arguments of every `BlockPointer::at`
call reached through `copy_tiled`: the tile-level calls
`level_tiled_ptr.at(tile)` and, inside each tile chunk, the GOB-level
calls of `copy_tile`. -/
def copy_tiled_block_addr_args (tiling : Tiling) (start end_ : Offset4D) :
    List (Extent4D × Offset4D) :=
  ((for_each_extent4d start end_ tiling.extent_B).map fun c =>
      (tiling.extent_B, c.1)) ++
    (for_each_extent4d start end_ tiling.extent_B).flatMap fun c =>
      copy_tile_block_addr_args tiling c.2.1 c.2.2

/-- The distinct `(whole, chunk_start)` argument pairs of the
`chunk_range` calls made by one `for_each_extent4d` run (the y- and
x-axis calls are repeated verbatim by the enclosing loops; the argument
set is unchanged). -/
def extent4d_chunk_range_args (start end_ : Offset4D) (chunk : Extent4D) :
    List ((Nat × Nat) × Nat) :=
  ((range_step start.z end_.z chunk.depth).map fun z =>
      ((start.z, end_.z), z)) ++
    ((range_step start.y end_.y chunk.height).map fun y =>
      ((start.y, end_.y), y)) ++
    ((range_step start.x end_.x chunk.width).map fun x =>
      ((start.x, end_.x), x))

/-- The `(whole, chunk_start)` arguments of every `chunk_range` call
reached through `copy_tiled`: the tile-level partition and, for every
tile chunk that misses the aligned fast path, the GOB-level
partition inside `copy_tile`. -/
def copy_tiled_chunk_range_args (tiling : Tiling) (start end_ : Offset4D) :
    List ((Nat × Nat) × Nat) :=
  extent4d_chunk_range_args start end_ tiling.extent_B ++
    (for_each_extent4d start end_ tiling.extent_B).flatMap fun c =>
      if gob_aligned c.2.1 c.2.2 then []
      else extent4d_chunk_range_args c.2.1 c.2.2 GOB_EXTENT_B

theorem tiling_extent_pos (t : Tiling) :
    0 < t.extent_B.width ∧ 0 < t.extent_B.height ∧ 0 < t.extent_B.depth := by
  unfold Tiling.extent_B gob_height
  refine ⟨by positivity, ?_, by positivity⟩
  split <;> positivity

/-- C10: on every entry-point invocation with `offset_B.a = 0` and
`extent_B.array_len = 1`, the debug assertions reached through
`copy_tiled` hold: every chunk origin passed to `BlockPointer::at` is
a multiple of the block extent in each axis (with zero array
component), and every `chunk_range` call satisfies
`chunk_start < whole.end`, so the `u32` subtractions
`whole.start - chunk_start` (guarded by `chunk_start < whole.start`)
and `whole.end - chunk_start` never underflow. -/
theorem copy_tiled_debug_asserts (tiling : Tiling) (offset_B : Offset4D)
    (extent_B : Extent4D) (ha : offset_B.a = 0)
    (hal : extent_B.array_len = 1) :
    (∀ arg ∈ copy_tiled_block_addr_args tiling offset_B (offset_B + extent_B),
        arg.2.x % arg.1.width = 0 ∧ arg.2.y % arg.1.height = 0 ∧
          arg.2.z % arg.1.depth = 0 ∧ arg.2.a = 0) ∧
      ∀ arg ∈ copy_tiled_chunk_range_args tiling offset_B
          (offset_B + extent_B),
        arg.2 < arg.1.2 := by
  obtain ⟨hw0, hh0, hd0⟩ := tiling_extent_pos tiling
  set start := offset_B with hstart
  set end_ := offset_B + extent_B with hend
  have hx : start.x ≤ end_.x := Nat.le_add_right _ _
  have hy : start.y ≤ end_.y := Nat.le_add_right _ _
  have hz : start.z ≤ end_.z := Nat.le_add_right _ _
  constructor
  · intro arg harg
    rw [copy_tiled_block_addr_args, List.mem_append] at harg
    rcases harg with harg | harg
    · obtain ⟨c, hc, rfl⟩ := List.mem_map.1 harg
      obtain ⟨z, hzm, y, hym, x, hxm, rfl⟩ := mem_for_each_extent4d.1 hc
      refine ⟨?_, ?_, ?_, ha⟩
      · exact (Nat.mod_eq_zero_of_dvd ((mem_range_step hw0).1 hxm).1)
      · exact (Nat.mod_eq_zero_of_dvd ((mem_range_step hh0).1 hym).1)
      · exact (Nat.mod_eq_zero_of_dvd ((mem_range_step hd0).1 hzm).1)
    · obtain ⟨c, hc, harg⟩ := List.mem_flatMap.1 harg
      have hloc := for_each_extent4d_locals hw0 hh0 hd0 hx hy hz hc
      rw [copy_tile_block_addr_args] at harg
      split_ifs at harg with hga
      · obtain ⟨g, hg, rfl⟩ := List.mem_map.1 harg
        obtain ⟨z, hzm, y, hym, x, hxm, rfl⟩ :=
          mem_for_each_extent4d_aligned.1 hg
        obtain ⟨⟨ax, ay, az⟩, -⟩ := hga
        refine ⟨?_, ?_, ?_, by simpa [Offset4D.new] using hloc.2.1.trans ha⟩
        · exact Nat.mod_eq_zero_of_dvd
            (range_step_exact_dvd (Nat.dvd_of_mod_eq_zero ax) hxm)
        · exact Nat.mod_eq_zero_of_dvd
            (range_step_exact_dvd (Nat.dvd_of_mod_eq_zero ay) hym)
        · exact Nat.mod_eq_zero_of_dvd
            (range_step_exact_dvd (Nat.dvd_of_mod_eq_zero az) hzm)
      · obtain ⟨c2, hc2, rfl⟩ := List.mem_map.1 harg
        obtain ⟨z, hzm, y, hym, x, hxm, rfl⟩ := mem_for_each_extent4d.1 hc2
        refine ⟨?_, ?_, ?_, by simpa [Offset4D.new] using hloc.2.1.trans ha⟩
        · exact Nat.mod_eq_zero_of_dvd ((mem_range_step (by decide)).1 hxm).1
        · exact Nat.mod_eq_zero_of_dvd ((mem_range_step (by decide)).1 hym).1
        · exact Nat.mod_eq_zero_of_dvd ((mem_range_step (by decide)).1 hzm).1
  · intro arg harg
    rw [copy_tiled_chunk_range_args, List.mem_append] at harg
    rcases harg with harg | harg
    · rw [extent4d_chunk_range_args] at harg
      simp only [List.mem_append, List.mem_map] at harg
      rcases harg with (⟨z, hzm, rfl⟩ | ⟨y, hym, rfl⟩) | ⟨x, hxm, rfl⟩
      · exact range_step_mem_lt_end hd0 hzm
      · exact range_step_mem_lt_end hh0 hym
      · exact range_step_mem_lt_end hw0 hxm
    · obtain ⟨c, hc, harg⟩ := List.mem_flatMap.1 harg
      have hloc := for_each_extent4d_locals hw0 hh0 hd0 hx hy hz hc
      split_ifs at harg
      · simp at harg
      · rw [extent4d_chunk_range_args] at harg
        simp only [List.mem_append, List.mem_map] at harg
        rcases harg with (⟨z, hzm, rfl⟩ | ⟨y, hym, rfl⟩) | ⟨x, hxm, rfl⟩
        · exact range_step_mem_lt_end (by decide) hzm
        · exact range_step_mem_lt_end (by decide) hym
        · exact range_step_mem_lt_end (by decide) hxm

/-- Witness for C10: for the unit tiling and the rectangle
`offset = (0,1,0,0)`, `extent = (16,2,1,1)`, the tile-level
`BlockPointer::at` argument `(tile_extent, (0,0,0,0))` is aligned and
the y-axis `chunk_range` call `((1,3), 0)` satisfies `0 < 3`. -/
theorem copy_tiled_debug_asserts_witness :
    (0 % (Tiling.extent_B ⟨true, 0, 0, 0⟩).width = 0 ∧
        0 % (Tiling.extent_B ⟨true, 0, 0, 0⟩).height = 0 ∧
        0 % (Tiling.extent_B ⟨true, 0, 0, 0⟩).depth = 0 ∧
        (⟨0, 0, 0, 0⟩ : Offset4D).a = 0) ∧
      (0 : Nat) < 3 :=
  ⟨(copy_tiled_debug_asserts ⟨true, 0, 0, 0⟩ ⟨0, 1, 0, 0⟩ ⟨16, 2, 1, 1⟩ rfl
      rfl).1 (Tiling.extent_B ⟨true, 0, 0, 0⟩, ⟨0, 0, 0, 0⟩) (by decide),
    (copy_tiled_debug_asserts ⟨true, 0, 0, 0⟩ ⟨0, 1, 0, 0⟩ ⟨16, 2, 1, 1⟩ rfl
      rfl).2 ((1, 3), 0) (by decide)⟩

/-- Disjoint bit-or is addition: for `a` below `2 ^ k`,
`a ||| (b <<< k)` equals `a + b * 2 ^ k`. -/
theorem lor_two_pow_eq_add {a b k : Nat} (h : a < 2 ^ k) :
    a ||| b <<< k = a + b * 2 ^ k := by
  apply Nat.eq_of_testBit_eq
  intro i
  have hmul : a + b * 2 ^ k = 2 ^ k * b + a := by ring
  rw [hmul, Nat.testBit_lor, Nat.testBit_shiftLeft,
    Nat.testBit_mul_pow_two_add b h i]
  rcases Nat.lt_or_ge i k with hik | hik
  · simp [hik, Nat.not_le.2 hik]
  · have ha : Nat.testBit a i = false :=
      Nat.testBit_eq_false_of_lt
        (lt_of_lt_of_le h (Nat.pow_le_pow_right (by norm_num) hik))
    simp [ha, hik, Nat.not_lt.2 hik]

theorem add_mul_two_pow_lt (hx : xg < 2 ^ k1) (hy : yg < 2 ^ k2) :
    xg + yg * 2 ^ k1 < 2 ^ (k1 + k2) := by
  calc xg + yg * 2 ^ k1 < 2 ^ k1 + yg * 2 ^ k1 := by omega
    _ = (yg + 1) * 2 ^ k1 := by ring
    _ ≤ 2 ^ k2 * 2 ^ k1 := Nat.mul_le_mul_right _ (by omega)
    _ = 2 ^ (k1 + k2) := by rw [← Nat.pow_add, Nat.add_comm k2 k1]

/-- The three-way block-linear interleave, written with `|||`/`<<<` as
in the spec, equals the mixed-radix sum. -/
theorem interleave_eq_add (hx : xg < 2 ^ k1) (hy : yg < 2 ^ k2)
    (zg : Nat) :
    xg ||| yg <<< k1 ||| zg <<< (k1 + k2) =
      xg + yg * 2 ^ k1 + zg * 2 ^ (k1 + k2) := by
  rw [lor_two_pow_eq_add hx, lor_two_pow_eq_add (add_mul_two_pow_lt hx hy)]

/-- Each digit of the mixed-radix sum is recovered by division and
remainder. -/
theorem mixed_radix_decomp (hx : xg < 2 ^ k1) (hy : yg < 2 ^ k2)
    (zg : Nat) :
    (xg + yg * 2 ^ k1 + zg * 2 ^ (k1 + k2)) % 2 ^ k1 = xg ∧
      (xg + yg * 2 ^ k1 + zg * 2 ^ (k1 + k2)) / 2 ^ k1 % 2 ^ k2 = yg ∧
      (xg + yg * 2 ^ k1 + zg * 2 ^ (k1 + k2)) / 2 ^ (k1 + k2) = zg := by
  have e : xg + yg * 2 ^ k1 + zg * 2 ^ (k1 + k2) =
      2 ^ k1 * (yg + 2 ^ k2 * zg) + xg := by
    rw [Nat.pow_add]
    ring
  have hq : (xg + yg * 2 ^ k1 + zg * 2 ^ (k1 + k2)) / 2 ^ k1 =
      yg + 2 ^ k2 * zg := by
    rw [e, Nat.mul_add_div (Nat.two_pow_pos k1), Nat.div_eq_of_lt hx,
      Nat.add_zero]
  have ec : yg + 2 ^ k2 * zg = 2 ^ k2 * zg + yg := by ring
  refine ⟨?_, ?_, ?_⟩
  · rw [e, Nat.mul_add_mod, Nat.mod_eq_of_lt hx]
  · rw [hq, ec, Nat.mul_add_mod, Nat.mod_eq_of_lt hy]
  · have hsplit : (xg + yg * 2 ^ k1 + zg * 2 ^ (k1 + k2)) / 2 ^ (k1 + k2) =
        (xg + yg * 2 ^ k1 + zg * 2 ^ (k1 + k2)) / 2 ^ k1 / 2 ^ k2 := by
      rw [Nat.div_div_eq_div_mul, ← Nat.pow_add]
    rw [hsplit, hq, ec, Nat.mul_add_div (Nat.two_pow_pos k2),
      Nat.div_eq_of_lt hy, Nat.add_zero]

/-- The byte offset `copy_tile` computes for a GOB origin, in
mixed-radix form: `BlockPointer::new(tile_ptr, GOB_EXTENT_B,
tiling.extent_B()).at((64*xg, 8*yg, zg, 0))`. -/
theorem block_addr_gob (tiling : Tiling)
    (h8 : tiling.gob_height_is_8 = true) (tile_ptr xg yg zg : Nat) :
    (BlockPointer.new tile_ptr GOB_EXTENT_B tiling.extent_B).addr
        ⟨64 * xg, 8 * yg, zg, 0⟩ =
      tile_ptr + 512 *
        (xg + yg * 2 ^ tiling.x_log2 +
          zg * 2 ^ (tiling.x_log2 + tiling.y_log2)) := by
  unfold BlockPointer.new BlockPointer.addr Tiling.extent_B GOB_EXTENT_B
    gob_height
  rw [h8]
  simp only [if_true]
  rw [Nat.pow_add]
  ring

/-- C4: for every tiling on the active (`gob_height_is_8`) path and
every in-range GOB coordinate, the byte offset from the tile base at
which `copy_tile` places the GOB equals
`512 * (xg | yg << x_log2 | zg << (x_log2 + y_log2))`, this value is
below `gob_count = 2^(x_log2+y_log2+z_log2)` (in GOB-size units), and
the interleave maps the in-range coordinates injectively and
surjectively onto `[0, gob_count)`. -/
theorem copy_tile_gob_addressing (tiling : Tiling)
    (h8 : tiling.gob_height_is_8 = true) (tile_ptr : Nat)
    (xg yg zg : Nat) (hx : xg < 2 ^ tiling.x_log2)
    (hy : yg < 2 ^ tiling.y_log2) (hz : zg < 2 ^ tiling.z_log2) :
    (BlockPointer.new tile_ptr GOB_EXTENT_B tiling.extent_B).addr
        ⟨64 * xg, 8 * yg, zg, 0⟩ =
      tile_ptr + 512 * (xg ||| yg <<< tiling.x_log2 |||
        zg <<< (tiling.x_log2 + tiling.y_log2)) ∧
      (xg ||| yg <<< tiling.x_log2 |||
          zg <<< (tiling.x_log2 + tiling.y_log2)) <
        2 ^ (tiling.x_log2 + tiling.y_log2 + tiling.z_log2) ∧
      (∀ xg2 yg2 zg2, xg2 < 2 ^ tiling.x_log2 → yg2 < 2 ^ tiling.y_log2 →
        zg2 < 2 ^ tiling.z_log2 →
        (xg ||| yg <<< tiling.x_log2 |||
            zg <<< (tiling.x_log2 + tiling.y_log2)) =
          (xg2 ||| yg2 <<< tiling.x_log2 |||
            zg2 <<< (tiling.x_log2 + tiling.y_log2)) →
        xg = xg2 ∧ yg = yg2 ∧ zg = zg2) ∧
      ∀ n, n < 2 ^ (tiling.x_log2 + tiling.y_log2 + tiling.z_log2) →
        ∃ ug vg wg, ug < 2 ^ tiling.x_log2 ∧ vg < 2 ^ tiling.y_log2 ∧
          wg < 2 ^ tiling.z_log2 ∧
          (ug ||| vg <<< tiling.x_log2 |||
            wg <<< (tiling.x_log2 + tiling.y_log2)) = n := by
  set k1 := tiling.x_log2
  set k2 := tiling.y_log2
  set k3 := tiling.z_log2
  refine ⟨?_, ?_, ?_, ?_⟩
  · rw [block_addr_gob tiling h8, interleave_eq_add hx hy]
  · rw [interleave_eq_add hx hy]
    have h1 := add_mul_two_pow_lt hx hy
    calc xg + yg * 2 ^ k1 + zg * 2 ^ (k1 + k2)
        < 2 ^ (k1 + k2) + zg * 2 ^ (k1 + k2) := by omega
      _ = (zg + 1) * 2 ^ (k1 + k2) := by ring
      _ ≤ 2 ^ k3 * 2 ^ (k1 + k2) := Nat.mul_le_mul_right _ (by omega)
      _ = 2 ^ (k1 + k2 + k3) := by
          rw [← Nat.pow_add, Nat.add_comm k3 (k1 + k2)]
  · intro xg2 yg2 zg2 hx2 hy2 hz2 heq
    rw [interleave_eq_add hx hy, interleave_eq_add hx2 hy2] at heq
    obtain ⟨d1, d2, d3⟩ := mixed_radix_decomp hx hy zg
    obtain ⟨e1, e2, e3⟩ := mixed_radix_decomp hx2 hy2 zg2
    rw [heq] at d1 d2 d3
    exact ⟨d1.symm.trans e1, d2.symm.trans e2, d3.symm.trans e3⟩
  · intro n hn
    refine ⟨n % 2 ^ k1, n / 2 ^ k1 % 2 ^ k2, n / 2 ^ (k1 + k2),
      Nat.mod_lt n (Nat.two_pow_pos k1), Nat.mod_lt _ (Nat.two_pow_pos k2),
      ?_, ?_⟩
    · rw [Nat.div_lt_iff_lt_mul (Nat.two_pow_pos (k1 + k2)), ← Nat.pow_add,
        Nat.add_comm k3 (k1 + k2)]
      exact hn
    · rw [interleave_eq_add (Nat.mod_lt n (Nat.two_pow_pos k1))
        (Nat.mod_lt _ (Nat.two_pow_pos k2))]
      have h1 := Nat.div_add_mod n (2 ^ k1)
      have h2 := Nat.div_add_mod (n / 2 ^ k1) (2 ^ k2)
      have h3 : n / 2 ^ k1 / 2 ^ k2 = n / 2 ^ (k1 + k2) := by
        rw [Nat.div_div_eq_div_mul, Nat.pow_add]
      rw [← h3]
      set A := 2 ^ k1
      set B := 2 ^ k2
      set q1 := n / A
      set r1 := n % A
      set q2 := q1 / B
      set r2 := q1 % B
      have hAB : 2 ^ (k1 + k2) = A * B := Nat.pow_add 2 k1 k2
      calc r1 + r2 * A + q2 * 2 ^ (k1 + k2)
          = A * (B * q2 + r2) + r1 := by rw [hAB]; ring
        _ = n := by rw [h2, h1]

/-- Witness for C4: in the `2×2×2`-GOB tiling, the GOB at coordinate
`(1, 1, 0)` lands 512 * 3 bytes past the tile base. -/
theorem copy_tile_gob_addressing_witness :
    (BlockPointer.new 0 GOB_EXTENT_B (Tiling.extent_B ⟨true, 1, 1, 1⟩)).addr
        ⟨64 * 1, 8 * 1, 0, 0⟩ =
      0 + 512 * (1 ||| 1 <<< (Tiling.mk true 1 1 1).x_log2 |||
        0 <<< ((Tiling.mk true 1 1 1).x_log2 + (Tiling.mk true 1 1 1).y_log2)) :=
  (copy_tile_gob_addressing ⟨true, 1, 1, 1⟩ rfl 0 1 1 0 (by decide)
    (by decide) (by decide)).1

/-- C3: `CopyGOB2D::copy_gob` ignores the y-bounds of the requested
sub-rectangle.  For the GOB-local sub-rectangle `[0,64) × [2,4)` (start
`(0,2,0,0)`, end `(64,4,0,1)`) the destination byte at GOB offset 0 —
which holds the pixel at `(x, y) = (0, 0)`, a row strictly below
`start.y = 2` — is overwritten with the linear source byte (here the
constant 1) instead of keeping its original value 0: the walker clips
each 16-byte line against `start.x`/`end.x` only and never consults
`start.y`/`end.y`. -/
theorem copy_gob_ignores_y_bounds :
    run_pairs_to_tiled
        (copy_gob 0 (LinearPointer.new 0 1 64 512) ⟨0, 2, 0, 0⟩
          ⟨64, 4, 0, 1⟩)
        (fun _ => 0) (fun _ => 1) 0 = 1 := by
  set_option maxRecDepth 100000 in decide

/-- Inverse of the GOB-offset placement actually implemented by
`gob2d_for_each_16b`: recover the in-GOB `(x, y)` byte coordinate from
a byte offset in `[0, 512)`.  (The walker's interleave is
`b8..b4 = x5 y2 x4 y1 y0`; see `gob2d_contradicts_hw_formula` for its
divergence from the documented formula.) -/
def gob_decode (o : Nat) : Nat × Nat :=
  ((o &&& 15) ||| ((o >>> 2) &&& 16) ||| ((o >>> 3) &&& 32),
    ((o >>> 4) &&& 3) ||| ((o >>> 5) &&& 4))

/-- Every byte of every 16-byte line enumerated by the walker sits at
an offset below 512 which decodes back to its `(x, y)` coordinate. -/
theorem gob2d_decode_correct :
    ∀ t ∈ gob2d_for_each_16b, ∀ d, d < 16 →
      t.1 + d < 512 ∧ gob_decode (t.1 + d) = (t.2.1 + d, t.2.2) ∧
        t.2.1 + d < 64 ∧ t.2.2 < 8 := by
  decide

/-- Generalised mixed-radix digit recovery: for `x < b1` and `y < b2`,
division and remainder recover the digits of `x + y*b1 + z*(b1*b2)`. -/
theorem mixed_radix_decomp_gen {x b1 y b2 : Nat} (hx : x < b1) (hy : y < b2)
    (z : Nat) :
    (x + y * b1 + z * (b1 * b2)) % b1 = x ∧
      (x + y * b1 + z * (b1 * b2)) / b1 % b2 = y ∧
      (x + y * b1 + z * (b1 * b2)) / (b1 * b2) = z := by
  have hb1 : 0 < b1 := by omega
  have hb2 : 0 < b2 := by omega
  have e : x + y * b1 + z * (b1 * b2) = b1 * (y + b2 * z) + x := by ring
  have hq : (x + y * b1 + z * (b1 * b2)) / b1 = y + b2 * z := by
    rw [e, Nat.mul_add_div hb1, Nat.div_eq_of_lt hx, Nat.add_zero]
  have ec : y + b2 * z = b2 * z + y := by ring
  refine ⟨?_, ?_, ?_⟩
  · rw [e, Nat.mul_add_mod, Nat.mod_eq_of_lt hx]
  · rw [hq, ec, Nat.mul_add_mod, Nat.mod_eq_of_lt hy]
  · rw [← Nat.div_div_eq_div_mul, hq, ec, Nat.mul_add_div hb2,
      Nat.div_eq_of_lt hy, Nat.add_zero]

/-- Decode a tiled byte address back to the absolute byte coordinate it
belongs to, for the block-linear layout `copy_tiled` uses: strip the
level base, split into tile index / GOB index / in-GOB offset, and undo
each mixed-radix map.  This is the specification device for the
round-trip proof. -/
def tiled_coord (tiling : Tiling) (level_extent_B : Extent4D)
    (level_ptr : Nat) (t : Nat) : Offset4D :=
  let k1 := tiling.x_log2
  let k2 := tiling.y_log2
  let k3 := tiling.z_log2
  let nG := 2 ^ (k1 + k2 + k3)
  let q := t - level_ptr
  let A := q / (512 * nG)
  let r := q % (512 * nG)
  let B := r / 512
  let o := r % 512
  let nW := align_up level_extent_B.width (64 * 2 ^ k1) / (64 * 2 ^ k1)
  let nH := align_up level_extent_B.height (8 * 2 ^ k2) / (8 * 2 ^ k2)
  ⟨A % nW * (64 * 2 ^ k1) + B % 2 ^ k1 * 64 + (gob_decode o).1,
    A / nW % nH * (8 * 2 ^ k2) + B / 2 ^ k1 % 2 ^ k2 * 8 + (gob_decode o).2,
    A / (nW * nH) * 2 ^ k3 + B / 2 ^ (k1 + k2),
    0⟩

/-- The linear address that the traversal pairs with a given tiled
address: the level-relative cursor evaluated at the decoded
coordinate. -/
def copy_tiled_key (tiling : Tiling) (level_extent_B : Extent4D)
    (level_ptr : Nat) (linear : LinearPointer) (start : Offset4D)
    (t : Nat) : LinAddr :=
  (linear.reverse start).addr (tiled_coord tiling level_extent_B level_ptr t)

/-- Membership in a stepped range with endpoints that are multiples of
the step: exactly the multiples of `c` in `[s, e)`. -/
theorem mem_range_step_exact_of_dvd (hc : 0 < c) (hs : c ∣ s) (he : c ∣ e) :
    v ∈ range_step_exact s e c ↔ c ∣ v ∧ s ≤ v ∧ v < e := by
  obtain ⟨S, rfl⟩ := hs
  obtain ⟨E, rfl⟩ := he
  rw [mem_range_step_exact]
  rcases le_or_lt E S with hle | hlt
  · have hz : c * E - c * S = 0 := by
      have := Nat.mul_le_mul_left c hle
      omega
    have hcnt : (c * E - c * S + c - 1) / c = 0 := by
      rw [hz, Nat.zero_add, Nat.div_eq_of_lt (by omega)]
    rw [hcnt]
    constructor
    · rintro ⟨i, hi, -⟩
      omega
    · rintro ⟨-, h1, h2⟩
      have := Nat.mul_le_mul_left c hle
      omega
  · have hsub : c * E - c * S = c * (E - S) := by
      rw [Nat.mul_sub_left_distrib]
    have hcnt : (c * E - c * S + c - 1) / c = E - S := by
      rw [hsub]
      have : c * (E - S) + c - 1 = c * (E - S) + (c - 1) := by
        have : 0 < c * (E - S) := Nat.mul_pos hc (by omega)
        omega
      rw [this, Nat.mul_add_div hc, Nat.div_eq_of_lt (by omega), Nat.add_zero]
    rw [hcnt]
    constructor
    · rintro ⟨i, hi, rfl⟩
      refine ⟨⟨S + i, by ring⟩, Nat.le_add_right _ _, ?_⟩
      calc c * S + i * c = c * (S + i) := by ring
        _ < c * E := by
            rw [Nat.mul_lt_mul_left hc]
            omega
    · rintro ⟨⟨k, rfl⟩, h1, h2⟩
      have hSk : S ≤ k := Nat.le_of_mul_le_mul_left h1 hc
      have hkE : k < E := by
        rw [Nat.mul_lt_mul_left hc] at h2
        exact h2
      refine ⟨k - S, by omega, ?_⟩
      calc c * k = c * (S + (k - S)) := by congr 1; omega
        _ = c * S + (k - S) * c := by ring

/-- Every byte pair copied by `CopyGOB2D::copy_gob` is a byte of one of
the walker's 16-byte lines. -/
theorem copy_gob_elem {tiled : Nat} {lin : LinearPointer} {s e : Offset4D}
    {p : Nat × LinAddr} (hp : p ∈ copy_gob tiled lin s e) :
    ∃ t ∈ gob2d_for_each_16b, ∃ d < 16,
      p = (tiled + t.1 + d,
        lin.addr (Offset4D.new t.2.1 t.2.2 0 0) + (d : Nat)) := by
  unfold copy_gob at hp
  rw [List.mem_flatMap] at hp
  obtain ⟨t, ht, hp⟩ := hp
  unfold copy_gob_line at hp
  split_ifs at hp with h1 h2
  · obtain ⟨j, hj, rfl⟩ := List.mem_map.1 hp
    rw [List.mem_range] at hj
    exact ⟨t, ht, j, hj, by rw [Nat.add_assoc]⟩
  · obtain ⟨j, hj, rfl⟩ := List.mem_map.1 hp
    rw [List.mem_range] at hj
    have he16 : min (e.x - t.2.1) 16 ≤ 16 := Nat.min_le_right _ _
    refine ⟨t, ht, max t.2.1 s.x - t.2.1 + j, by omega, by rw [Nat.add_assoc]⟩
  · simp at hp

/-- Every byte pair copied by `CopyGOB2D::copy_whole_gob` is a byte of
one of the walker's 16-byte lines. -/
theorem copy_whole_gob_elem {tiled : Nat} {lin : LinearPointer}
    {p : Nat × LinAddr} (hp : p ∈ copy_whole_gob tiled lin) :
    ∃ t ∈ gob2d_for_each_16b, ∃ d < 16,
      p = (tiled + t.1 + d,
        lin.addr (Offset4D.new t.2.1 t.2.2 0 0) + (d : Nat)) := by
  unfold copy_whole_gob at hp
  rw [List.mem_flatMap] at hp
  obtain ⟨t, ht, hp⟩ := hp
  obtain ⟨j, hj, rfl⟩ := List.mem_map.1 hp
  rw [List.mem_range] at hj
  exact ⟨t, ht, j, hj, rfl⟩

/-- Every byte pair copied by `copy_tile` comes from a GOB whose origin
is GOB-aligned and inside the tile extent, at a byte of one of the
walker's lines. -/
theorem copy_tile_elem {tiling : Tiling} {tptr : Nat} {lin : LinearPointer}
    {s e : Offset4D} {p : Nat × LinAddr}
    (h8 : tiling.gob_height_is_8 = true)
    (hex : e.x ≤ tiling.extent_B.width)
    (hey : e.y ≤ tiling.extent_B.height)
    (hez : e.z ≤ tiling.extent_B.depth)
    (hp : p ∈ copy_tile tiling tptr lin s e) :
    ∃ Go : Offset4D, 64 ∣ Go.x ∧ Go.x < tiling.extent_B.width ∧
      8 ∣ Go.y ∧ Go.y < tiling.extent_B.height ∧
      Go.z < tiling.extent_B.depth ∧
      ∃ t ∈ gob2d_for_each_16b, ∃ d < 16,
        p = ((BlockPointer.new tptr GOB_EXTENT_B tiling.extent_B).addr Go
            + t.1 + d,
          (lin.offset Go).addr (Offset4D.new t.2.1 t.2.2 0 0) + (d : Nat)) := by
  have hw64 : (64 : Nat) ∣ tiling.extent_B.width := ⟨2 ^ tiling.x_log2, rfl⟩
  have hh8 : (8 : Nat) ∣ tiling.extent_B.height := by
    unfold Tiling.extent_B gob_height
    rw [h8]
    exact ⟨2 ^ tiling.y_log2, by simp⟩
  unfold copy_tile at hp
  split_ifs at hp with hga
  · rw [List.mem_flatMap] at hp
    obtain ⟨g, hg, hp2⟩ := hp
    obtain ⟨z, hz, y, hy, x, hx, rfl⟩ := mem_for_each_extent4d_aligned.1 hg
    obtain ⟨⟨ax, ay, az⟩, ⟨bx, bby, bz⟩⟩ := hga
    obtain ⟨dx, sx, ltx⟩ := (mem_range_step_exact_of_dvd (by decide)
      (Nat.dvd_of_mod_eq_zero ax) (Nat.dvd_of_mod_eq_zero bx)).1 hx
    obtain ⟨dy, sy, lty⟩ := (mem_range_step_exact_of_dvd (by decide)
      (Nat.dvd_of_mod_eq_zero ay) (Nat.dvd_of_mod_eq_zero bby)).1 hy
    obtain ⟨-, sz, ltz⟩ := (mem_range_step_exact_of_dvd (by decide)
      (Nat.dvd_of_mod_eq_zero az) (Nat.dvd_of_mod_eq_zero bz)).1 hz
    obtain ⟨t, ht, d, hd, rfl⟩ := copy_whole_gob_elem hp2
    exact ⟨Offset4D.new x y z s.a, dx, lt_of_lt_of_le ltx hex, dy,
      lt_of_lt_of_le lty hey, lt_of_lt_of_le ltz hez, t, ht, d, hd, rfl⟩
  · rw [List.mem_flatMap] at hp
    obtain ⟨c, hc, hp2⟩ := hp
    obtain ⟨z, hz, y, hy, x, hx, rfl⟩ := mem_for_each_extent4d.1 hc
    obtain ⟨dx, -, ltx⟩ := (mem_range_step (by decide)).1 hx
    obtain ⟨dy, -, lty⟩ := (mem_range_step (by decide)).1 hy
    obtain ⟨-, -, ltz⟩ := (mem_range_step (by decide)).1 hz
    have hbx : x < tiling.extent_B.width :=
      lt_of_lt_of_le ltx (align_up_le_of_dvd_of_le hw64 hex)
    have hby : y < tiling.extent_B.height :=
      lt_of_lt_of_le lty (align_up_le_of_dvd_of_le hh8 hey)
    have hbz : z < tiling.extent_B.depth :=
      lt_of_lt_of_le ltz (align_up_le_of_dvd_of_le (one_dvd _) hez)
    have hform : ∃ t ∈ gob2d_for_each_16b, ∃ d < 16,
        p = ((BlockPointer.new tptr GOB_EXTENT_B tiling.extent_B).addr
            (Offset4D.new x y z s.a) + t.1 + d,
          (lin.offset (Offset4D.new x y z s.a)).addr
            (Offset4D.new t.2.1 t.2.2 0 0) + (d : Nat)) := by
      split_ifs at hp2
      · exact copy_whole_gob_elem hp2
      · exact copy_gob_elem hp2
    obtain ⟨t, ht, d, hd, rfl⟩ := hform
    exact ⟨Offset4D.new x y z s.a, dx, hbx, dy, hby, hbz, t, ht, d, hd, rfl⟩

/-- Every byte pair copied by `copy_tiled` comes from a tile chunk
origin aligned to the tile extent and inside the aligned level extent,
a GOB origin aligned and inside the tile, and a byte of one of the
walker's lines. -/
theorem copy_tiled_elem {tiling : Tiling} {level : Extent4D}
    {level_ptr : Nat} {lin : LinearPointer} {start end_ : Offset4D}
    {p : Nat × LinAddr} (h8 : tiling.gob_height_is_8 = true)
    (hex : end_.x ≤ align_up level.width tiling.extent_B.width)
    (hey : end_.y ≤ align_up level.height tiling.extent_B.height)
    (hsx : start.x ≤ end_.x) (hsy : start.y ≤ end_.y)
    (hsz : start.z ≤ end_.z)
    (hp : p ∈ copy_tiled tiling level level_ptr lin start end_) :
    ∃ To : Offset4D,
      tiling.extent_B.width ∣ To.x ∧
        To.x < align_up level.width tiling.extent_B.width ∧
        tiling.extent_B.height ∣ To.y ∧
        To.y < align_up level.height tiling.extent_B.height ∧
        tiling.extent_B.depth ∣ To.z ∧
        ∃ Go : Offset4D, 64 ∣ Go.x ∧ Go.x < tiling.extent_B.width ∧
          8 ∣ Go.y ∧ Go.y < tiling.extent_B.height ∧
          Go.z < tiling.extent_B.depth ∧
          ∃ t ∈ gob2d_for_each_16b, ∃ d < 16,
            p = ((BlockPointer.new
                ((BlockPointer.new level_ptr tiling.extent_B
                  (level.align tiling.extent_B)).addr To)
                GOB_EXTENT_B tiling.extent_B).addr Go + t.1 + d,
              (((lin.reverse start).offset To).offset Go).addr
                (Offset4D.new t.2.1 t.2.2 0 0) + (d : Nat)) := by
  obtain ⟨hw0, hh0, hd0⟩ := tiling_extent_pos tiling
  simp only [copy_tiled] at hp
  rw [List.mem_flatMap] at hp
  obtain ⟨c, hc, hp2⟩ := hp
  have hloc := for_each_extent4d_locals hw0 hh0 hd0 hsx hsy hsz hc
  obtain ⟨-, -, -, -, lex, -, ley, -, lez⟩ := hloc
  obtain ⟨Go, g1, g2, g3, g4, g5, t, ht, d, hd, hform⟩ :=
    copy_tile_elem h8 lex ley lez hp2
  obtain ⟨z, hz, y, hy, x, hx, rfl⟩ := mem_for_each_extent4d.1 hc
  obtain ⟨dx, -, ltx⟩ := (mem_range_step hw0).1 hx
  obtain ⟨dy, -, lty⟩ := (mem_range_step hh0).1 hy
  obtain ⟨dz, -, -⟩ := (mem_range_step hd0).1 hz
  refine ⟨Offset4D.new x y z start.a, dx, ?_, dy, ?_, dz,
    Go, g1, g2, g3, g4, g5, t, ht, d, hd, hform⟩
  · exact lt_of_lt_of_le ltx (le_trans (align_up_mono hex)
      (le_of_eq (align_up_of_dvd (align_up_dvd _ _) hw0)))
  · exact lt_of_lt_of_le lty (le_trans (align_up_mono hey)
      (le_of_eq (align_up_of_dvd (align_up_dvd _ _) hh0)))

theorem mixed_radix_lt {x b1 y b2 z b3 : Nat} (hx : x < b1) (hy : y < b2)
    (hz : z < b3) : x + y * b1 + z * (b1 * b2) < b1 * (b2 * b3) := by
  have h1 : x + y * b1 + z * (b1 * b2) < (1 + y) * b1 + z * (b1 * b2) := by
    have : (1 + y) * b1 = b1 + y * b1 := by ring
    omega
  have h2 : (1 + y) * b1 ≤ b2 * b1 := Nat.mul_le_mul_right _ (by omega)
  have h3 : b2 * b1 + z * (b1 * b2) = (1 + z) * (b1 * b2) := by ring
  have h4 : (1 + z) * (b1 * b2) ≤ b3 * (b1 * b2) :=
    Nat.mul_le_mul_right _ (by omega)
  have h5 : b3 * (b1 * b2) = b1 * (b2 * b3) := by ring
  omega

/-- Decoding is left inverse to the address computation of
`copy_tiled`: the tiled byte address built from an aligned, in-range
tile origin `To`, an aligned, in-range GOB origin `Go` and an in-GOB
offset `o` decodes to the coordinate `To + Go + gob_decode o`. -/
theorem tiled_coord_decode (tiling : Tiling) (level : Extent4D)
    (level_ptr : Nat) (h8 : tiling.gob_height_is_8 = true)
    {To Go : Offset4D} {o : Nat}
    (t1 : tiling.extent_B.width ∣ To.x)
    (t2 : To.x < align_up level.width tiling.extent_B.width)
    (t3 : tiling.extent_B.height ∣ To.y)
    (t4 : To.y < align_up level.height tiling.extent_B.height)
    (t5 : tiling.extent_B.depth ∣ To.z)
    (g1 : 64 ∣ Go.x) (g2 : Go.x < tiling.extent_B.width)
    (g3 : 8 ∣ Go.y) (g4 : Go.y < tiling.extent_B.height)
    (g5 : Go.z < tiling.extent_B.depth) (ho : o < 512) :
    tiled_coord tiling level level_ptr
        ((BlockPointer.new
            ((BlockPointer.new level_ptr tiling.extent_B
              (level.align tiling.extent_B)).addr To)
            GOB_EXTENT_B tiling.extent_B).addr Go + o) =
      ⟨To.x + Go.x + (gob_decode o).1, To.y + Go.y + (gob_decode o).2,
        To.z + Go.z, 0⟩ := by
  set k1 := tiling.x_log2 with hk1
  set k2 := tiling.y_log2 with hk2
  set k3 := tiling.z_log2 with hk3
  have hext : tiling.extent_B = ⟨64 * 2 ^ k1, 8 * 2 ^ k2, 2 ^ k3, 1⟩ := by
    unfold Tiling.extent_B gob_height
    rw [h8]
    simp
  rw [hext] at t1 t2 t3 t4 t5 g2 g4 g5
  simp only at t1 t2 t3 t4 t5 g2 g4 g5
  obtain ⟨xt, hxt⟩ := t1
  obtain ⟨yt, hyt⟩ := t3
  obtain ⟨zt, hzt⟩ := t5
  obtain ⟨xg, hxg⟩ := g1
  obtain ⟨yg, hyg⟩ := g3
  set W := align_up level.width (64 * 2 ^ k1) with hWdef
  set H := align_up level.height (8 * 2 ^ k2) with hHdef
  set nW := W / (64 * 2 ^ k1) with hnW
  set nH := H / (8 * 2 ^ k2) with hnH
  have hW : W = 64 * 2 ^ k1 * nW :=
    (Nat.mul_div_cancel' (align_up_dvd _ _)).symm
  have hH : H = 8 * 2 ^ k2 * nH :=
    (Nat.mul_div_cancel' (align_up_dvd _ _)).symm
  have hxtn : xt < nW := by
    rw [hxt, hW] at t2
    exact Nat.lt_of_mul_lt_mul_left t2
  have hytn : yt < nH := by
    rw [hyt, hH] at t4
    exact Nat.lt_of_mul_lt_mul_left t4
  have hxgn : xg < 2 ^ k1 := by
    rw [hxg] at g2
    exact Nat.lt_of_mul_lt_mul_left g2
  have hygn : yg < 2 ^ k2 := by
    rw [hyg] at g4
    exact Nat.lt_of_mul_lt_mul_left g4
  set N := 2 ^ (k1 + k2 + k3) with hN
  have hNsplit : N = 2 ^ k1 * (2 ^ k2 * 2 ^ k3) := by
    rw [hN, Nat.pow_add, Nat.pow_add, Nat.mul_assoc]
  set A0 := xt + yt * nW + zt * (nW * nH) with hA0
  set B0 := xg + yg * 2 ^ k1 + Go.z * (2 ^ k1 * 2 ^ k2) with hB0
  have hB0N : B0 < N := by
    rw [hNsplit]
    exact mixed_radix_lt hxgn hygn g5
  have hRlt : B0 * 512 + o < 512 * N := by
    have h1 : B0 * 512 ≤ (N - 1) * 512 :=
      Nat.mul_le_mul_right _ (by omega)
    have h2 : (N - 1) * 512 + 512 = N * 512 := by
      have : 1 ≤ N := by omega
      calc (N - 1) * 512 + 512 = (N - 1 + 1) * 512 := by ring
        _ = N * 512 := by rw [Nat.sub_add_cancel this]
    omega
  have haddr : (BlockPointer.new
      ((BlockPointer.new level_ptr tiling.extent_B
        (level.align tiling.extent_B)).addr To)
      GOB_EXTENT_B tiling.extent_B).addr Go + o =
      level_ptr + ((512 * N) * A0 + (B0 * 512 + o)) := by
    rw [hext]
    unfold BlockPointer.new BlockPointer.addr Extent4D.align GOB_EXTENT_B
    simp only
    rw [← hWdef, ← hHdef]
    rw [hxt, hyt, hzt, hxg, hyg, hW, hH, hA0, hB0, hNsplit]
    ring
  rw [haddr]
  unfold tiled_coord
  simp only [← hk1, ← hk2, ← hk3, ← hWdef, ← hHdef, ← hnW, ← hnH, ← hN]
  rw [Nat.add_sub_cancel_left]
  have hA : (512 * N * A0 + (B0 * 512 + o)) / (512 * N) = A0 := by
    rw [Nat.mul_add_div (by positivity), Nat.div_eq_of_lt hRlt,
      Nat.add_zero]
  have hR : (512 * N * A0 + (B0 * 512 + o)) % (512 * N) = B0 * 512 + o := by
    rw [Nat.mul_add_mod, Nat.mod_eq_of_lt hRlt]
  have hB : (B0 * 512 + o) / 512 = B0 := by
    rw [Nat.mul_comm B0 512, Nat.mul_add_div (by norm_num),
      Nat.div_eq_of_lt ho, Nat.add_zero]
  have ho2 : (B0 * 512 + o) % 512 = o := by
    rw [Nat.mul_comm B0 512, Nat.mul_add_mod, Nat.mod_eq_of_lt ho]
  rw [hA, hR, hB, ho2]
  obtain ⟨a1, a2, a3⟩ := mixed_radix_decomp_gen hxtn hytn zt
  obtain ⟨b1, b2, b3⟩ := mixed_radix_decomp_gen hxgn hygn Go.z
  rw [← hA0] at a1 a2 a3
  rw [← hB0] at b1 b2 b3
  have hpow : (2 : Nat) ^ (k1 + k2) = 2 ^ k1 * 2 ^ k2 := Nat.pow_add 2 k1 k2
  rw [a1, a2, a3, b1, b2, hpow, b3]
  simp only [Offset4D.mk.injEq]
  refine ⟨?_, ?_, ?_, trivial⟩
  · rw [hxt, hxg]
    ring
  · rw [hyt, hyg]
    ring
  · rw [hzt]
    ring

/-- With `x_shift = 0` the composed cursor offsets collapse into one
evaluation at the summed coordinate. -/
theorem linear_chain_addr {lp : LinearPointer} (h0 : lp.x_shift = 0)
    (To Go : Offset4D) (x y d : Nat) :
    ((lp.offset To).offset Go).addr (Offset4D.new x y 0 0) + (d : Nat) =
      lp.addr ⟨To.x + Go.x + (x + d), To.y + Go.y + y, To.z + Go.z, 0⟩ := by
  obtain ⟨P, sh, r, pl⟩ := lp
  simp only at h0
  subst h0
  simp only [LinearPointer.offset, LinearPointer.addr, Offset4D.new,
    Nat.shiftRight_zero]
  push_cast
  ring

/-- Graph property of the traversal: the linear address of every byte
pair `copy_tiled` copies is a function of its tiled address, namely
`copy_tiled_key`.  This is where injectivity of the block-linear
layout enters the round-trip argument. -/
theorem copy_tiled_graph (tiling : Tiling) (level : Extent4D)
    (level_ptr : Nat) (lin : LinearPointer) (start end_ : Offset4D)
    (h8 : tiling.gob_height_is_8 = true) (hshift : lin.x_shift = 0)
    (hex : end_.x ≤ align_up level.width tiling.extent_B.width)
    (hey : end_.y ≤ align_up level.height tiling.extent_B.height)
    (hsx : start.x ≤ end_.x) (hsy : start.y ≤ end_.y)
    (hsz : start.z ≤ end_.z) :
    ∀ p ∈ copy_tiled tiling level level_ptr lin start end_,
      p.2 = copy_tiled_key tiling level level_ptr lin start p.1 := by
  intro p hp
  obtain ⟨To, t1, t2, t3, t4, t5, Go, g1, g2, g3, g4, g5, t, ht, d, hd, rfl⟩ :=
    copy_tiled_elem h8 hex hey hsx hsy hsz hp
  obtain ⟨ho512, hdec, -, -⟩ := gob2d_decode_correct t ht d hd
  unfold copy_tiled_key
  rw [Nat.add_assoc,
    tiled_coord_decode tiling level level_ptr h8 t1 t2 t3 t4 t5 g1 g2 g3 g4
      g5 ho512, hdec]
  show (((lin.reverse start).offset To).offset Go).addr
      (Offset4D.new t.2.1 t.2.2 0 0) + (d : Nat) =
    (lin.reverse start).addr ⟨To.x + Go.x + (t.2.1 + d),
      To.y + Go.y + t.2.2, To.z + Go.z, 0⟩
  exact @linear_chain_addr (lin.reverse start) hshift To Go t.2.1 t.2.2 d

theorem run_pairs_to_tiled_of_no_key (ps : List (Nat × LinAddr))
    (T : Nat → Nat) (L : LinAddr → Nat) (t : Nat)
    (h : ∀ q ∈ ps, q.1 ≠ t) : run_pairs_to_tiled ps T L t = T t := by
  induction ps generalizing T with
  | nil => rfl
  | cons p rest ih =>
    show run_pairs_to_tiled rest (Function.update T p.1 (L p.2)) L t = T t
    rw [ih _ fun q hq => h q (List.mem_cons_of_mem _ hq)]
    exact Function.update_noteq (Ne.symm (h p (List.mem_cons_self _ _))) _ _

/-- After the linear→tiled pass, every tiled address touched by the
traversal holds the linear byte its key points at — this uses that the
linear address is a function of the tiled address. -/
theorem run_pairs_to_tiled_read (ps : List (Nat × LinAddr))
    (L : LinAddr → Nat) (key : Nat → LinAddr)
    (hkey : ∀ q ∈ ps, q.2 = key q.1) :
    ∀ (T : Nat → Nat) (t : Nat), (∃ q ∈ ps, q.1 = t) →
      run_pairs_to_tiled ps T L t = L (key t) := by
  induction ps with
  | nil =>
    intro T t hy
    obtain ⟨q, hq, -⟩ := hy
    simp at hq
  | cons p rest ih =>
    intro T t hy
    show run_pairs_to_tiled rest (Function.update T p.1 (L p.2)) L t =
      L (key t)
    by_cases hr : ∃ q ∈ rest, q.1 = t
    · exact ih (fun q hq => hkey q (List.mem_cons_of_mem _ hq)) _ t hr
    · have hpt : p.1 = t := by
        obtain ⟨q, hq, hqt⟩ := hy
        rcases List.mem_cons.1 hq with rfl | hq2
        · exact hqt
        · exact absurd ⟨q, hq2, hqt⟩ hr
      rw [run_pairs_to_tiled_of_no_key rest _ L t
        fun q hq hqq => hr ⟨q, hq, hqq⟩]
      rw [← hpt, Function.update_same, hkey p (List.mem_cons_self _ _), hpt]

theorem run_pairs_to_linear_id (ps : List (Nat × LinAddr)) (T1 : Nat → Nat)
    (L : LinAddr → Nat) (hread : ∀ q ∈ ps, T1 q.1 = L q.2) :
    ∀ La : LinAddr → Nat, (∀ b, La b = L b) →
      ∀ a, run_pairs_to_linear ps T1 La a = L a := by
  induction ps with
  | nil =>
    intro La hacc
    exact hacc
  | cons p rest ih =>
    intro La hacc a
    show run_pairs_to_linear rest T1 (Function.update La p.2 (T1 p.1)) a = L a
    refine ih (fun q hq => hread q (List.mem_cons_of_mem _ hq)) _ ?_ a
    intro b
    by_cases hb : b = p.2
    · subst hb
      rw [Function.update_same, hread p (List.mem_cons_self _ _)]
    · rw [Function.update_noteq hb, hacc]

/-- Abstract round trip: if the linear address of every pair is a
function of the tiled address, copying linear→tiled and then
tiled→linear over the same pair list restores the linear buffer
exactly. -/
theorem run_pairs_round_trip (ps : List (Nat × LinAddr))
    (key : Nat → LinAddr) (hkey : ∀ q ∈ ps, q.2 = key q.1)
    (T : Nat → Nat) (L : LinAddr → Nat) (a : LinAddr) :
    run_pairs_to_linear ps (run_pairs_to_tiled ps T L) L a = L a := by
  refine run_pairs_to_linear_id ps _ L ?_ L (fun _ => rfl) a
  intro q hq
  rw [run_pairs_to_tiled_read ps L key hkey T q.1 ⟨q, hq, rfl⟩, ← hkey q hq]

/-- C1: round-trip identity.  For every tiling with
`gob_height_is_8 = true` and every rectangle `[offset_B, offset_B +
extent_B)` that fits inside `level_extent_B` (with `offset_B.a = 0`,
`extent_B.array_len = 1`), writing the linear buffer `L` into the tiled
buffer with `nil_copy_linear_to_tiled` and reading it back with
`nil_copy_tiled_to_linear` leaves every byte of the linear buffer equal
to its original value — in particular `L' = L` inside the rectangle,
and bytes outside it keep their original value. -/
theorem nil_copy_round_trip (tiling : Tiling)
    (h8 : tiling.gob_height_is_8 = true) (level_extent_B : Extent4D)
    (offset_B : Offset4D) (extent_B : Extent4D)
    (hfx : offset_B.x + extent_B.width ≤ level_extent_B.width)
    (hfy : offset_B.y + extent_B.height ≤ level_extent_B.height)
    (hfz : offset_B.z + extent_B.depth ≤ level_extent_B.depth)
    (ha : offset_B.a = 0) (hal : extent_B.array_len = 1)
    (tiled_ptr : Nat) (lin_ptr : LinAddr) (row plane : Nat)
    (sw1 sw2 : CopySwizzle) (T : Nat → Nat) (L : LinAddr → Nat)
    (a : LinAddr) :
    nil_copy_tiled_to_linear lin_ptr row plane tiled_ptr level_extent_B
        offset_B extent_B sw2 tiling
        (nil_copy_linear_to_tiled tiled_ptr level_extent_B lin_ptr row plane
          offset_B extent_B sw1 tiling T L) L a = L a := by
  obtain ⟨hw0, hh0, hd0⟩ := tiling_extent_pos tiling
  have hshift : (LinearPointer.new lin_ptr 1 row plane).x_shift = 0 := by
    simp [LinearPointer.new, Nat.log2]
  have hex : (offset_B + extent_B).x ≤
      align_up level_extent_B.width tiling.extent_B.width :=
    le_trans hfx (le_align_up hw0 _)
  have hey : (offset_B + extent_B).y ≤
      align_up level_extent_B.height tiling.extent_B.height :=
    le_trans hfy (le_align_up hh0 _)
  show run_pairs_to_linear
      (copy_tiled tiling level_extent_B tiled_ptr
        (LinearPointer.new lin_ptr 1 row plane) offset_B
        (offset_B + extent_B))
      (run_pairs_to_tiled
        (copy_tiled tiling level_extent_B tiled_ptr
          (LinearPointer.new lin_ptr 1 row plane) offset_B
          (offset_B + extent_B)) T L) L a = L a
  exact run_pairs_round_trip _
    (copy_tiled_key tiling level_extent_B tiled_ptr
      (LinearPointer.new lin_ptr 1 row plane) offset_B)
    (copy_tiled_graph tiling level_extent_B tiled_ptr
      (LinearPointer.new lin_ptr 1 row plane) offset_B
      (offset_B + extent_B) h8 hshift hex hey (Nat.le_add_right _ _)
      (Nat.le_add_right _ _) (Nat.le_add_right _ _)) T L a

/-- Witness for C1: a concrete round trip over a straddled rectangle
(`offset = (0,1,0,0)`, `extent = (16,2,1,1)`) in a one-tile level
restores the linear byte at address 65. -/
theorem nil_copy_round_trip_witness :
    nil_copy_tiled_to_linear 0 64 512 0 ⟨64, 8, 1, 1⟩ ⟨0, 1, 0, 0⟩
        ⟨16, 2, 1, 1⟩ CopySwizzle._None ⟨true, 0, 0, 0⟩
        (nil_copy_linear_to_tiled 0 ⟨64, 8, 1, 1⟩ 0 64 512 ⟨0, 1, 0, 0⟩
          ⟨16, 2, 1, 1⟩ CopySwizzle._None ⟨true, 0, 0, 0⟩ (fun _ => 0)
          fun b => if b = 65 then 3 else 9)
        (fun b => if b = 65 then 3 else 9) 65 = 3 :=
  (nil_copy_round_trip ⟨true, 0, 0, 0⟩ rfl ⟨64, 8, 1, 1⟩ ⟨0, 1, 0, 0⟩
    ⟨16, 2, 1, 1⟩ (by decide) (by decide) (by decide) rfl rfl 0 0 64 512
    CopySwizzle._None CopySwizzle._None (fun _ => 0)
    (fun b => if b = 65 then 3 else 9) 65).trans (by decide)
